import Mathlib

/-!
# The column-partitioned LCS engine of CS3210 Assignment 1

A shallow embedding of `LCS-threads.c`, `LCS-processes.c` and `LCS-omp.c`.

* C `int` values are `Int`; the values that occur are bounded by the column
  count, so no wrap-around is modelled.
* An allocated block is a `List`; a load or store whose index is outside the
  block stops the run with `Stop.outOfBounds`.  The one exception is the load
  `mat[old][DP[x][j]-1]` of the row update, which the source performs even when
  its result is multiplied by `y = 0`: outside the block it yields the word
  that happens to lie there, the parameter `stray`.
* A loop whose condition the body cannot falsify is run on fuel.
* The input files are taken to hold what they declare: the buffer of a
  sequence is its symbols followed by the terminating byte.  The checks
  `main` makes before the computation are modelled on their own
  (`threadsEntry`, `ompEntry`), with the library call that creates the barrier
  as a parameter.
* The workers of one round load only `DP`, `seq1` and row `old` and store only
  into row `new`, and the barrier separates the rounds; a round is therefore
  modelled as the workers running one after the other in the order of their
  ids.
-/

namespace LCS

/-! ## Memory -/

/-- Ways a run stops without a result. -/
inductive Stop where
  | outOfBounds
  | uninitialised
  | noFuel
  deriving DecidableEq, Repr

/-- A run yields a value or stops. -/
abbrev Run (α : Type) := Except Stop α

/-- Load `a[k]`. -/
def load {α : Type} (a : List α) (k : Int) : Run α :=
  if k < 0 then .error .outOfBounds
  else
    match a[k.toNat]? with
    | some v => .ok v
    | none => .error .outOfBounds

/-- Store `a[k] = v`. -/
def store {α : Type} (a : List α) (k : Int) (v : α) : Run (List α) :=
  if k < 0 then .error .outOfBounds
  else if k.toNat < a.length then .ok (a.set k.toNat v)
  else .error .outOfBounds

/-- Load `t[i][j]` from an array of row pointers. -/
def load2 (t : List (List Int)) (i j : Int) : Run Int := do
  let row ← load t i
  load row j

/-- Store `t[i][j] = v` into an array of row pointers. -/
def store2 (t : List (List Int)) (i j : Int) (v : Int) : Run (List (List Int)) := do
  let row ← load t i
  let row' ← store row j v
  store t i row'

/-- Load `a[k]` where the source reads whatever lies at that address: inside
the block the stored value, outside it the word `stray`. -/
def peek (a : List Int) (k : Int) (stray : Int) : Int :=
  if k < 0 then stray else a.getD k.toNat stray

/-! ## Constants and input buffers -/

/-- The macro `POSSIBLE_LETTERS`. -/
def POSSIBLE_LETTERS : Nat := 4

/-- The terminating byte that `fscanf("%s")` appends. -/
def NUL : Char := Char.ofNat 0

/-- The block `malloc(len + 1)` after `fscanf("%s")` has stored a string of
`len` symbols into it. -/
def buffer (s : List Char) : List Char := s ++ [NUL]

/-- The rows `DP[0..POSSIBLE_LETTERS]`, each `calloc(M+1, sizeof(int))`. -/
def callocDP (M : Nat) : List (List Int) :=
  List.replicate (POSSIBLE_LETTERS + 1) (List.replicate (M + 1) 0)

/-! ## Match-index builder (`LCS-threads.c` 81-90, `LCS-processes.c` 86-95,
`LCS-omp.c` 84-93: the three texts are identical) -/

/-- One pass through the body of the inner loop at column `j` of class `i`
(lines 83-88). -/
def builderBody (seq1 seq2 : List Char) (i j : Int) (DP : List (List Int)) :
    Run (List (List Int)) :=
  if j = 0 then .ok DP
  else do
    let c2 ← load seq2 (j - 1)
    let c1 ← load seq1 i
    if c2 = c1 then store2 DP i j j
    else do
      let v ← load2 DP i (j - 1)
      store2 DP i j v

/-- The inner loop `for (int j = 0; i<=M; j++)` entered at column `j`; the
condition tests `i`, so it is `fuel` that bounds the model. -/
def builderInner (M : Int) (seq1 seq2 : List Char) (i : Int) :
    Nat → Int → List (List Int) → Run (List (List Int))
  | 0, _, _ => .error .noFuel
  | fuel + 1, j, DP =>
    if i ≤ M then do
      let DP' ← builderBody seq1 seq2 i j DP
      builderInner M seq1 seq2 i fuel (j + 1) DP'
    else .ok DP

/-- The values `0, 1, ..., n-1` of a counting loop. -/
def upTo (n : Nat) : List Int := (List.range n).map (fun (k : Nat) => (k : Int))

/-- The outer loop `for (int i = 0; i<= POSSIBLE_LETTERS; i++)` around the
inner loop; each inner loop receives `fuel`. -/
def matchIndexBuilder (fuel : Nat) (M : Int) (seq1 seq2 : List Char)
    (DP : List (List Int)) : Run (List (List Int)) :=
  (upTo (POSSIBLE_LETTERS + 1)).foldlM
    (fun DP i => builderInner M seq1 seq2 i fuel 0 DP) DP

/-! ## Work partition (`LCS-threads.c` 96-98 and 140-144, `LCS-processes.c`
103-104 and 146-150) -/

/-- The global `thread_split = M/NUM_THREADS` (C division truncates).  For
`NUM_THREADS = 0` the C division traps; no worker is spawned then and the
value is not used. -/
def thread_split (M NUM_THREADS : Int) : Int := Int.tdiv M NUM_THREADS

/-- The global `remaining = M-(thread_split + NUM_THREADS)`. -/
def remaining (M NUM_THREADS : Int) : Int :=
  M - (thread_split M NUM_THREADS + NUM_THREADS)

/-- The flag `last` handed to worker `id`: set once the spawning loop reaches
`i == NUM_THREADS - 1`. -/
def lastFlag (NUM_THREADS id : Int) : Bool := decide (id = NUM_THREADS - 1)

/-- The local `starting_col = thread_split * id + 1`. -/
def starting_col (M NUM_THREADS id : Int) : Int :=
  thread_split M NUM_THREADS * id + 1

/-- The local `ending_col`, extended by `remaining` for the last worker. -/
def ending_col (M NUM_THREADS id : Int) : Int :=
  let e := starting_col M NUM_THREADS id + thread_split M NUM_THREADS - 1
  if lastFlag NUM_THREADS id then e + remaining M NUM_THREADS else e

/-- The values `j` visited by `for (int j = s; j<=e; j++)`. -/
def columns (s e : Int) : List Int :=
  (List.range (e + 1 - s).toNat).map (fun (k : Nat) => s + (k : Int))

/-- The columns worker `id` visits in every round. -/
def workerColumns (M NUM_THREADS id : Int) : List Int :=
  columns (starting_col M NUM_THREADS id) (ending_col M NUM_THREADS id)

/-- The ids `0 .. NUM_THREADS-1` of the spawned workers. -/
def workerIds (NUM_THREADS : Int) : List Int := upTo NUM_THREADS.toNat

/-- Number of workers whose column interval contains `j`. -/
def coverCount (M NUM_THREADS j : Int) : Nat :=
  ((workerIds NUM_THREADS).filter
    (fun id => decide (starting_col M NUM_THREADS id ≤ j ∧ j ≤ ending_col M NUM_THREADS id))).length

/-! ## Row roles (`LCS-threads.c` 146-147 and 167-170) -/

/-- The three-assignment exchange `old = old ^ new; new = new ^ old;
old = old ^ new` on the pair `(old, new)`. -/
def swapRoles (r : Nat × Nat) : Nat × Nat :=
  let old1 := r.1 ^^^ r.2
  let new1 := r.2 ^^^ old1
  let old2 := old1 ^^^ new1
  (old2, new1)

/-- The values `1 .. N` of `for (int i = 1; i <= N; i++)`. -/
def roundIndices (N : Nat) : List Int := (List.range N).map (fun (k : Nat) => (k : Int) + 1)

/-- The rounds `is` in order, each with the pair `(old, new)` the workers hold
while they compute it: `r` in the first, exchanged after every round. -/
def schedule : List Int → Nat × Nat → List (Int × (Nat × Nat))
  | [], _ => []
  | i :: is, r => (i, r) :: schedule is (swapRoles r)

/-- Index of the row the coordinator prints from (lines 117-122). -/
def finalRow (N : Nat) : Nat := if N % 2 = 0 then 0 else 1

/-! ## Row engine (`LCS-threads.c` 155-166, `LCS-processes.c` 161-172) -/

/-- The chain `if (a == 'A') x = 1; else if ...`; `none` when no branch
assigns `x`. -/
def symbolClass (a : Char) : Option Int :=
  if a = 'A' then some 1
  else if a = 'T' then some 2
  else if a = 'C' then some 3
  else if a = 'G' then some 4
  else none

/-- The value `(0-DP[x][j]) < 0` of `y` for `p = DP[x][j]`. -/
def yOf (p : Int) : Int := if 0 - p < 0 then 1 else 0

/-- The value `(0 - (mat[old][j] - y * mat[old][DP[x][j]-1])) < 0` of `z`. -/
def zOf (prevj prevp y : Int) : Nat := if 0 - (prevj - y * prevp) < 0 then 1 else 0

/-- The value stored into `mat[new][j]`: `mat[old][j] + y * (z^1)`, from
`prevj = mat[old][j]`, `prevp = mat[old][DP[x][j]-1]` and `p = DP[x][j]`. -/
def cellValue (prevj prevp p : Int) : Int :=
  prevj + yOf p * ((zOf prevj prevp (yOf p) ^^^ 1 : Nat) : Int)

/-- The index `DP[x][j]-1` at which the row `mat[old]` is read. -/
def prevIndex (p : Int) : Int := p - 1

/-- The body of the column loop (lines 163-165) at column `j`. -/
def columnBody (DP : List (List Int)) (x : Option Int) (old new : Nat) (stray : Int)
    (mat : List (List Int)) (j : Int) : Run (List (List Int)) := do
  let x ← (match x with
    | some x => pure x
    | none => throw Stop.uninitialised : Run Int)
  let p ← load2 DP x j
  let prevj ← load2 mat old j
  let oldRow ← load mat old
  let prevp := peek oldRow (prevIndex p) stray
  store2 mat new j (cellValue prevj prevp p)

/-- The column loop `for (int j = s; j<=e; j++)` over the body above. -/
def columnLoop (DP : List (List Int)) (x : Option Int) (old new : Nat) (stray : Int)
    (s e : Int) (mat : List (List Int)) : Run (List (List Int)) :=
  (columns s e).foldlM (columnBody DP x old new stray) mat

/-- What worker `id` does in round `i` after the barrier (lines 155-166). -/
def workerRow (DP : List (List Int)) (seq1 : List Char) (M NUM_THREADS : Int)
    (stray : Int) (i : Int) (r : Nat × Nat) (mat : List (List Int)) (id : Int) :
    Run (List (List Int)) := do
  let a ← load seq1 (i - 1)
  columnLoop DP (symbolClass a) r.1 r.2 stray
    (starting_col M NUM_THREADS id) (ending_col M NUM_THREADS id) mat

/-- Round `i` of all workers, between two barrier releases. -/
def round (DP : List (List Int)) (seq1 : List Char) (M NUM_THREADS : Int)
    (stray : Int) (i : Int) (r : Nat × Nat) (mat : List (List Int)) :
    Run (List (List Int)) :=
  (workerIds NUM_THREADS).foldlM (workerRow DP seq1 M NUM_THREADS stray i r) mat

/-- The worker loops of `threadCompute` for all `N` rounds: `old = 0`,
`new = 1` at the start, exchanged at the end of every round. -/
def threadCompute (DP : List (List Int)) (seq1 : List Char) (M NUM_THREADS : Int)
    (N : Nat) (stray : Int) (mat : List (List Int)) : Run (List (List Int)) :=
  (schedule (roundIndices N) (0, 1)).foldlM
    (fun mat ir => round DP seq1 M NUM_THREADS stray ir.1 ir.2 mat) mat

/-! ## Coordinator (`LCS-threads.c` 92-94 and 117-122) -/

/-- The score rows after `mat[0] = calloc(M+1, ..)`, `mat[1] = malloc(..)`,
`mat[1][0] = 0`; `junk k` is what the fresh block holds at index `k`. -/
def initMat (M : Nat) (junk : Nat → Int) : List (List Int) :=
  [List.replicate (M + 1) 0, ((List.range (M + 1)).map junk).set 0 0]

/-- The printed value: `mat[0][M]` when `N` is even, else `mat[1][M]`. -/
def finalRead (N M : Nat) (mat : List (List Int)) : Run Int :=
  load2 mat (finalRow N : Int) (M : Int)

/-- The computation of `main` in `LCS-threads.c` from the loaded input to the
printed score: `seq1` with declared length `M` from the first file, `seq2`
with declared length `N` from the second. -/
def LCS_threads (fuel : Nat) (M N : Nat) (seq1 seq2 : List Char) (NUM_THREADS : Int)
    (junk : Nat → Int) (stray : Int) : Run Int := do
  let DP ← matchIndexBuilder fuel (M : Int) (buffer seq1) (buffer seq2) (callocDP M)
  let mat ← threadCompute DP (buffer seq1) (M : Int) NUM_THREADS N stray (initMat M junk)
  finalRead N M mat

/-! ## Parallel-loop backend (`LCS-omp.c` 25-47), rows taken in order -/

/-- One iteration `i` of the row loop of `prepareScoreTable`: `old = 0` and
`new = 1` are declared afresh, the columns are `0 .. M`. -/
def ompRow (DP : List (List Int)) (seq1 : List Char) (M : Int) (stray : Int)
    (mat : List (List Int)) (i : Int) : Run (List (List Int)) := do
  let a ← load seq1 (i - 1)
  columnLoop DP (symbolClass a) 0 1 stray 0 M mat

/-- The row loop of `prepareScoreTable` with `i = 1 .. N` in order. -/
def prepareScoreTable (DP : List (List Int)) (seq1 : List Char) (M : Int) (N : Nat)
    (stray : Int) (mat : List (List Int)) : Run (List (List Int)) :=
  (roundIndices N).foldlM (ompRow DP seq1 M stray) mat

/-! ## Reference -/

/-- The classic recurrence against a fixed first symbol `a`, given the
answers `f` for the rest of the first sequence. -/
def lcsStep (f : List Char → Nat) (a : Char) : List Char → Nat
  | [] => 0
  | b :: bs => if a = b then f bs + 1 else max (f (b :: bs)) (lcsStep f a bs)

/-- Length of the longest common subsequence by the classic recurrence of
the specification (section 8); it is not taken from the source. -/
def lcsClassic : List Char → List Char → Nat
  | [] => fun _ => 0
  | a :: as => lcsStep (lcsClassic as) a

/-! ## Inputs used in the evaluations -/

/-- The sequence "ATCG" of the specification's first example. -/
def ATCG : List Char := ['A', 'T', 'C', 'G']

/-- The sequence "AAAA" of the specification's second example. -/
def AAAA : List Char := ['A', 'A', 'A', 'A']

/-- The sequence "TTTT" of the specification's second example. -/
def TTTT : List Char := ['T', 'T', 'T', 'T']

/-- The table section 4.1 of the specification describes for the scanned
sequence "ATCG" with the classes A = 1, T = 2, C = 3, G = 4 of the row engine;
it is written out from the specification, the builder does not yield it. -/
def tableATCG : List (List Int) :=
  [[0, 0, 0, 0, 0], [0, 1, 1, 1, 1], [0, 0, 2, 2, 2], [0, 0, 0, 3, 3], [0, 0, 0, 0, 4]]

/-! ## Whole-row and sliced updates -/

/-- The value the column loop stores at column `k`, written as a function of
the class row `dpRow = DP[x]` of the match index and of the row
`oldRow = mat[old]` alone (`stray` stands for the word before the row, which
is loaded when `DP[x][k] = 0`). -/
def valAt (dpRow oldRow : List Int) (stray : Int) (k : Nat) : Int :=
  cellValue (oldRow.getD k 0) (peek oldRow (prevIndex (dpRow.getD k 0)) stray)
    (dpRow.getD k 0)

/-- The state a row update of class `xv` with the roles `old`, `new` works
on: `mat[old]` and `mat[new]` are two different rows of `M+1` entries and
`DP[xv]` is a row of `M+1` entries. -/
def Ready (DP mat : List (List Int)) (xv : Int) (old new M : Nat)
    (dpRow oldRow newRow : List Int) : Prop :=
  old ≠ new ∧ load DP xv = .ok dpRow ∧ load mat old = .ok oldRow ∧
    load mat new = .ok newRow ∧ dpRow.length = M + 1 ∧ oldRow.length = M + 1 ∧
    newRow.length = M + 1

/-- The column loops of several workers in one round, run one after the
other; `rs` lists their intervals `(starting_col, ending_col)`. -/
def sliceUpdates (DP : List (List Int)) (x : Option Int) (old new : Nat) (stray : Int)
    (rs : List (Int × Int)) (mat : List (List Int)) : Run (List (List Int)) :=
  rs.foldlM (fun m r => columnLoop DP x old new stray r.1 r.2 m) mat

/-- The columns visited by the column loops of `sliceUpdates`, in the order
of the visits. -/
def allColumns : List (Int × Int) → List Int
  | [] => []
  | r :: rs => columns r.1 r.2 ++ allColumns rs

/-- The `N` rounds of the worker loop when one worker is given the whole row,
columns `1 .. M`: the unpartitioned update. -/
def fullRowRounds (DP : List (List Int)) (seq1 : List Char) (M : Int) (N : Nat)
    (stray : Int) (mat : List (List Int)) : Run (List (List Int)) :=
  (schedule (roundIndices N) (0, 1)).foldlM
    (fun mat ir => do
      let a ← load seq1 (ir.1 - 1)
      columnLoop DP (symbolClass a) ir.2.1 ir.2.2 stray 1 M mat) mat

/-- A score row for `M` columns as the row engine keeps it: `M+1` entries,
0 in column 0, non-decreasing over the columns `0 .. M`, no entry above
`bound`. -/
def ScoreRow (M : Nat) (bound : Int) (row : List Int) : Prop :=
  row.length = M + 1 ∧ row.getD 0 0 = 0 ∧
    (∀ a b : Nat, a ≤ b → b ≤ M → row.getD a 0 ≤ row.getD b 0) ∧
    ∀ k : Nat, k ≤ M → row.getD k 0 ≤ bound

/-- A class row of the match index for `M` columns: `M+1` entries,
non-decreasing, the entry of column `j` between 0 and `j`. -/
def TableRow (M : Nat) (dpRow : List Int) : Prop :=
  dpRow.length = M + 1 ∧
    (∀ a b : Nat, a ≤ b → b ≤ M → dpRow.getD a 0 ≤ dpRow.getD b 0) ∧
    ∀ j : Nat, j ≤ M → 0 ≤ dpRow.getD j 0 ∧ dpRow.getD j 0 ≤ (j : Int)

/-- The score rows between two rounds, `old` and `new` being the roles of the
round to come: row `old` is a score row bounded by `bound`, row `new` is
another row of `M+1` entries with 0 in column 0. -/
def RowsInv (M : Nat) (bound : Int) (old new : Nat) (mat : List (List Int)) : Prop :=
  ∃ oldRow newRow, old ≠ new ∧ load mat old = .ok oldRow ∧ load mat new = .ok newRow ∧
    ScoreRow M bound oldRow ∧ newRow.length = M + 1 ∧ newRow.getD 0 0 = 0

/-- The value `v` is what lines 163-165 compute for column `k` from the match
index and row `old` of the rows `m`: `mat[old][k] + y * (z^1)` with the class
`x` of the round. -/
def CellFrom (DP : List (List Int)) (x : Option Int) (old : Nat) (stray : Int)
    (m : List (List Int)) (k : Int) (v : Int) : Prop :=
  ∃ xv p prevj oldRow, x = some xv ∧ load2 DP xv k = .ok p ∧ load2 m old k = .ok prevj ∧
    load m old = .ok oldRow ∧ v = cellValue prevj (peek oldRow (prevIndex p) stray) p

/-! ## The other `main`s and the checks before the computation -/

/-- The computation of `main` in `LCS-omp.c` (lines 77-109) from the loaded
input to the printed score, the row loop taken in order. -/
def LCS_omp (fuel : Nat) (M N : Nat) (seq1 seq2 : List Char) (junk : Nat → Int)
    (stray : Int) : Run Int := do
  let DP ← matchIndexBuilder fuel (M : Int) (buffer seq1) (buffer seq2) (callocDP M)
  let mat ← prepareScoreTable DP (buffer seq1) (M : Int) N stray (initMat M junk)
  finalRead N M mat

/-- How `main` leaves its opening checks: through `return`/`exit` with a
status, or on to the computation. -/
inductive Entry where
  | exits (status : Int)
  | computes
  deriving DecidableEq, Repr

/-- Lines 35-72 of `LCS-threads.c` (`LCS-processes.c` 17-81 has the same
order, with checks of the shared-memory calls in between that are left out
here): the test of `argc`, `NUM_THREADS = atoi(argv[3])` taken as it comes,
the test of the two `fopen` results, and the creation of the barrier for
`NUM_THREADS` waiters, left through `exit(err)` when the library call returns
`err != 0`.  The library call is the parameter `pthread_barrier_init`. -/
def threadsEntry (pthread_barrier_init : Int → Int) (argc NUM_THREADS : Int)
    (file1 file2 : Bool) : Entry :=
  if argc ≠ 4 then .exits 1
  else if !file1 || !file2 then .exits 1
  else if pthread_barrier_init NUM_THREADS ≠ 0 then .exits (pthread_barrier_init NUM_THREADS)
  else .computes

/-- Lines 51-64 of `LCS-omp.c`: the test of `argc`, `NUM_THREADS =
atoi(argv[3])` taken as it comes, the test of the two `fopen` results. -/
def ompEntry (argc _NUM_THREADS : Int) (file1 file2 : Bool) : Entry :=
  if argc ≠ 4 then .exits 1
  else if !file1 || !file2 then .exits 1
  else .computes

/-- What a run of `main` comes to: it has left through `return`/`exit` with a
status before the computation, or it has gone through the computation. -/
inductive MainResult where
  | exited (status : Int)
  | computed (r : Run Int)

/-- The function `main` of `LCS-threads.c`: the opening checks, and only when
they are passed the builder, the division `M/NUM_THREADS`, the workers and
the final read. -/
def main_threads (pthread_barrier_init : Int → Int) (argc NUM_THREADS : Int)
    (file1 file2 : Bool) (fuel M N : Nat) (seq1 seq2 : List Char) (junk : Nat → Int)
    (stray : Int) : MainResult :=
  match threadsEntry pthread_barrier_init argc NUM_THREADS file1 file2 with
  | .exits status => .exited status
  | .computes => .computed (LCS_threads fuel M N seq1 seq2 NUM_THREADS junk stray)

/-! ## The builder never hands over a table -/

/-- A run that has stopped stays stopped through what follows it. -/
theorem bind_isOk_false {α β : Type} (r : Run α) (f : α → Run β) (h : r.isOk = false) :
    (r >>= f).isOk = false := by
  cases r with
  | error e => rfl
  | ok a => simp [Except.isOk, Except.toBool] at h

/-- While `i ≤ M` the condition `i<=M` of the inner loop stays true, so no
amount of fuel lets the inner loop finish. -/
theorem builderInner_isOk (M : Int) (seq1 seq2 : List Char) (i : Int) (hi : i ≤ M) :
    ∀ (fuel : Nat) (j : Int) (DP : List (List Int)),
      (builderInner M seq1 seq2 i fuel j DP).isOk = false := by
  intro fuel
  induction fuel with
  | zero => intro j DP; rfl
  | succ n ih =>
    intro j DP
    rw [builderInner, if_pos hi]
    cases hb : builderBody seq1 seq2 i j DP with
    | error e => rfl
    | ok DP' => exact ih (j + 1) DP'

/-- The first inner loop (`i = 0`) never finishes, so neither does the
builder. -/
theorem matchIndexBuilder_isOk (fuel : Nat) (M : Nat) (seq1 seq2 : List Char)
    (DP : List (List Int)) :
    (matchIndexBuilder fuel (M : Int) seq1 seq2 DP).isOk = false := by
  have h0 : ((0 : Int) ≤ (M : Int)) := Int.ofNat_nonneg M
  have hl : upTo (POSSIBLE_LETTERS + 1) = 0 :: [1, 2, 3, 4] := by decide
  rw [matchIndexBuilder, hl, List.foldlM_cons]
  exact bind_isOk_false _ _ (builderInner_isOk _ seq1 seq2 0 h0 fuel 0 DP)

/-- The run of `main` stops inside the builder. -/
theorem LCS_threads_isOk (fuel M N : Nat) (seq1 seq2 : List Char) (W : Int)
    (junk : Nat → Int) (stray : Int) :
    (LCS_threads fuel M N seq1 seq2 W junk stray).isOk = false := by
  rw [LCS_threads]
  exact bind_isOk_false _ _ (matchIndexBuilder_isOk fuel M _ _ _)

/-! ## Loads and stores -/

theorem load_eq_ok {α : Type} (a : List α) (k : Int) (v : α) :
    load a k = .ok v ↔ 0 ≤ k ∧ a[k.toNat]? = some v := by
  unfold load
  by_cases hk : k < 0
  · simp only [hk, if_true]
    constructor
    · intro h; cases h
    · intro h; omega
  · simp only [hk, if_false]
    cases h : a[k.toNat]? with
    | none => simp
    | some w =>
      simp only [Except.ok.injEq, Option.some.injEq]
      constructor
      · intro e; exact ⟨by omega, e⟩
      · intro e; exact e.2

theorem store_eq_ok {α : Type} (a a' : List α) (k : Int) (v : α) :
    store a k v = .ok a' ↔ 0 ≤ k ∧ k.toNat < a.length ∧ a' = a.set k.toNat v := by
  unfold store
  by_cases hk : k < 0
  · simp only [hk, if_true]
    constructor
    · intro h; cases h
    · intro h; omega
  · simp only [hk, if_false]
    by_cases hl : k.toNat < a.length
    · simp only [hl, if_true, Except.ok.injEq]
      constructor
      · intro e; exact ⟨by omega, trivial, e.symm⟩
      · intro e; exact e.2.2.symm
    · rw [if_neg hl]
      constructor
      · intro h; cases h
      · intro h; exact absurd h.2.1 hl

theorem load2_eq_ok (t : List (List Int)) (i j : Int) (v : Int) :
    load2 t i j = .ok v ↔ ∃ row, load t i = .ok row ∧ load row j = .ok v := by
  unfold load2
  cases h : load t i with
  | error e => simp [bind, Except.bind]
  | ok row => simp [bind, Except.bind]

theorem store2_eq_ok (t t' : List (List Int)) (i j v : Int) :
    store2 t i j v = .ok t' ↔
      ∃ row, load t i = .ok row ∧ 0 ≤ j ∧ j.toNat < row.length ∧
        t' = t.set i.toNat (row.set j.toNat v) := by
  unfold store2
  cases h : load t i with
  | error e => simp [bind, Except.bind]
  | ok row =>
    have hi := (load_eq_ok t i row).1 h
    have hlen : i.toNat < t.length := by
      have := hi.2
      rcases Nat.lt_or_ge i.toNat t.length with h1 | h1
      · exact h1
      · rw [List.getElem?_eq_none h1] at this; cases this
    simp only [bind, Except.bind, Except.ok.injEq, exists_eq_left']
    cases h2 : store row j v with
    | error e =>
      constructor
      · intro h; cases h
      · intro h3
        have := (store_eq_ok row (row.set j.toNat v) j v).2 ⟨h3.1, h3.2.1, rfl⟩
        rw [h2] at this; cases this
    | ok row' =>
      have h3 := (store_eq_ok row row' j v).1 h2
      show store t i row' = Except.ok t' ↔ _
      rw [store_eq_ok]
      constructor
      · intro h4; exact ⟨h3.1, h3.2.1, by rw [h4.2.2, h3.2.2]⟩
      · intro h4; exact ⟨hi.1, hlen, by rw [h4.2.2, h3.2.2]⟩

theorem load_set {α : Type} (a : List α) (n : Nat) (v : α) (k : Int)
    (hn : n < a.length) :
    load (a.set n v) k = if k = (n : Int) then .ok v else load a k := by
  unfold load
  by_cases hk : k < 0
  · have : k ≠ (n : Int) := by
      intro e; rw [e] at hk; exact absurd hk (by simp)
    simp [hk, this]
  · simp only [hk, if_false, List.getElem?_set]
    by_cases hkn : k = (n : Int)
    · subst hkn
      simp [hn]
    · have : n ≠ k.toNat := by
        intro e; apply hkn; rw [e]; omega
      simp [this, hkn]

theorem load2_store2 (t t' : List (List Int)) (i j v : Int)
    (h : store2 t i j v = .ok t') (r k : Int) :
    load2 t' r k = if r = i ∧ k = j then .ok v else load2 t r k := by
  obtain ⟨row, hrow, hj, hjl, rfl⟩ := (store2_eq_ok t t' i j v).1 h
  have hi := (load_eq_ok t i row).1 hrow
  have hlen : i.toNat < t.length := by
    have := hi.2
    rcases Nat.lt_or_ge i.toNat t.length with h1 | h1
    · exact h1
    · rw [List.getElem?_eq_none h1] at this; cases this
  have hii : (i.toNat : Int) = i := Int.toNat_of_nonneg hi.1
  have hjj : (j.toNat : Int) = j := Int.toNat_of_nonneg hj
  unfold load2
  rw [load_set t i.toNat _ r hlen, hii]
  by_cases hr : r = i
  · subst hr
    rw [if_pos rfl, hrow]
    show load (row.set j.toNat v) k = _
    rw [load_set row j.toNat v k hjl, hjj]
    by_cases hk : k = j
    · simp [hk]
    · simp [hk]; rfl
  · simp [hr]

/-! ## Loops -/

theorem columnBody_eq_ok (DP : List (List Int)) (x : Option Int) (old new : Nat)
    (stray : Int) (mat mat' : List (List Int)) (j : Int)
    (h : columnBody DP x old new stray mat j = .ok mat') :
    ∃ xv p prevj oldRow, x = some xv ∧ load2 DP xv j = .ok p ∧
      load2 mat old j = .ok prevj ∧ load mat old = .ok oldRow ∧
      ∀ r k : Int, load2 mat' r k =
        if r = (new : Int) ∧ k = j then
          .ok (cellValue prevj (peek oldRow (prevIndex p) stray) p)
        else load2 mat r k := by
  unfold columnBody at h
  cases x with
  | none => cases h
  | some xv =>
    cases hp : load2 DP xv j with
    | error e => simp [bind, Except.bind, pure, Except.pure, hp] at h
    | ok p =>
      cases hprev : load2 mat old j with
      | error e => simp [bind, Except.bind, pure, Except.pure, hp, hprev] at h
      | ok prevj =>
        cases hrow : load mat old with
        | error e => simp [bind, Except.bind, pure, Except.pure, hp, hprev, hrow] at h
        | ok oldRow =>
          simp only [bind, Except.bind, pure, Except.pure, hp, hprev, hrow] at h
          exact ⟨xv, p, prevj, oldRow, rfl, hp, rfl, rfl,
            fun r k => load2_store2 mat mat' _ _ _ h r k⟩

theorem foldlM_invariant {σ α : Type} (P : σ → Prop) (f : σ → α → Run σ) :
    ∀ (l : List α), (∀ s a s', a ∈ l → P s → f s a = .ok s' → P s') →
      ∀ s s', P s → l.foldlM f s = .ok s' → P s' := by
  intro l
  induction l with
  | nil =>
    intro _ s s' hs h
    simp only [List.foldlM_nil, pure, Except.pure, Except.ok.injEq] at h
    exact h ▸ hs
  | cons a l ih =>
    intro hstep s s' hs h
    rw [List.foldlM_cons] at h
    cases hf : f s a with
    | error e => rw [hf] at h; cases h
    | ok s1 =>
      rw [hf] at h
      exact ih (fun s a s' ha => hstep s a s' (List.mem_cons_of_mem _ ha)) s1 s'
        (hstep s a s1 (List.mem_cons_self _ _) hs hf) h

theorem mem_columns (s e j : Int) : j ∈ columns s e ↔ s ≤ j ∧ j ≤ e := by
  unfold columns
  simp only [List.mem_map, List.mem_range]
  constructor
  · rintro ⟨k, hk, rfl⟩
    have hk' := Int.lt_toNat.1 hk
    show s ≤ s + (k : Int) ∧ s + (k : Int) ≤ e
    omega
  · intro h
    have h1 : ((j - s).toNat : Int) = j - s := Int.toNat_of_nonneg (by omega)
    refine ⟨(j - s).toNat, Int.lt_toNat.2 (by omega), ?_⟩
    show s + ((j - s).toNat : Int) = j
    omega

theorem mem_upTo (n : Nat) (i : Int) : i ∈ upTo n ↔ 0 ≤ i ∧ i < n := by
  unfold upTo
  simp only [List.mem_map, List.mem_range]
  constructor
  · rintro ⟨k, hk, rfl⟩
    show 0 ≤ (k : Int) ∧ (k : Int) < n
    omega
  · intro h
    have h1 : (i.toNat : Int) = i := Int.toNat_of_nonneg h.1
    refine ⟨i.toNat, by omega, h1⟩

theorem starting_col_pos (M : Nat) (W id : Int) (hW : 0 ≤ W) (hid : 0 ≤ id) :
    1 ≤ starting_col M W id := by
  unfold starting_col thread_split
  have h := Int.tdiv_nonneg (Int.ofNat_nonneg M) hW
  have := mul_nonneg h hid
  omega

/-! ## Row roles -/

theorem swapRoles_eq (a b : Nat) : swapRoles (a, b) = (b, a) := by
  have h1 : b ^^^ (a ^^^ b) = a := by
    rw [Nat.xor_comm a b, ← Nat.xor_assoc, Nat.xor_self, Nat.zero_xor]
  have h2 : (a ^^^ b) ^^^ a = b := by
    rw [Nat.xor_comm a b, Nat.xor_assoc, Nat.xor_self, Nat.xor_zero]
  simp only [swapRoles, h1, h2]

theorem iterate_swapRoles (k : Nat) : swapRoles^[k] (0, 1) = (k % 2, (k + 1) % 2) := by
  induction k with
  | zero => rfl
  | succ n ih =>
    rw [Function.iterate_succ_apply', ih, swapRoles_eq]
    have : (n + 1 + 1) % 2 = n % 2 := by omega
    rw [this]

theorem schedule_length : ∀ (l : List Int) (r : Nat × Nat), (schedule l r).length = l.length
  | [], _ => rfl
  | _ :: l, r => by simp [schedule, schedule_length l]

theorem schedule_getElem? : ∀ (l : List Int) (r : Nat × Nat) (k : Nat),
    (schedule l r)[k]? = (l[k]?).map (fun i => (i, swapRoles^[k] r))
  | [], _, _ => by simp [schedule]
  | _ :: _, _, 0 => by simp [schedule]
  | _ :: l, r, k + 1 => by
    simp only [schedule, List.getElem?_cons_succ, Function.iterate_succ_apply]
    exact schedule_getElem? l (swapRoles r) k

theorem roundIndices_getElem? (N k : Nat) (hk : k < N) :
    (roundIndices N)[k]? = some ((k : Int) + 1) := by
  simp [roundIndices, List.getElem?_range hk]

/-! ## Column 0 -/

theorem columnLoop_col0 (DP : List (List Int)) (x : Option Int) (old new : Nat)
    (stray : Int) (s e : Int) (hs : 1 ≤ s) (mat mat' : List (List Int))
    (h : columnLoop DP x old new stray s e mat = .ok mat') (row : Int) :
    load2 mat' row 0 = load2 mat row 0 := by
  unfold columnLoop at h
  refine foldlM_invariant (fun m => load2 m row 0 = load2 mat row 0) _ (columns s e)
    ?_ mat mat' rfl h
  intro m j m' hj hm hstep
  obtain ⟨_, _, _, _, _, _, _, _, hload⟩ := columnBody_eq_ok DP x old new stray m m' j hstep
  have hj0 : (0 : Int) ≠ j := by
    have := (mem_columns s e j).1 hj
    omega
  rw [hload row 0, if_neg (fun hc => hj0 hc.2)]
  exact hm

theorem workerRow_col0 (DP : List (List Int)) (seq1 : List Char) (M : Nat) (W : Int)
    (stray : Int) (i : Int) (r : Nat × Nat) (mat mat' : List (List Int)) (id : Int)
    (hid : id ∈ workerIds W)
    (h : workerRow DP seq1 M W stray i r mat id = .ok mat') (row : Int) :
    load2 mat' row 0 = load2 mat row 0 := by
  have hid' := (mem_upTo _ _).1 hid
  have hW : 0 ≤ W := by
    rcases lt_or_le W 0 with hn | hn
    · have h0 : W.toNat = 0 := Int.toNat_eq_zero.2 (le_of_lt hn)
      rw [h0] at hid'
      have := hid'.2
      have := hid'.1
      omega
    · exact hn
  unfold workerRow at h
  cases ha : load seq1 (i - 1) with
  | error e => rw [ha] at h; cases h
  | ok a =>
    rw [ha] at h
    exact columnLoop_col0 DP _ _ _ stray _ _ (starting_col_pos M W id hW hid'.1) mat mat' h row

theorem round_col0 (DP : List (List Int)) (seq1 : List Char) (M : Nat) (W : Int)
    (stray : Int) (i : Int) (r : Nat × Nat) (mat mat' : List (List Int))
    (h : round DP seq1 M W stray i r mat = .ok mat') (row : Int) :
    load2 mat' row 0 = load2 mat row 0 := by
  unfold round at h
  refine foldlM_invariant (fun m => load2 m row 0 = load2 mat row 0) _ (workerIds W)
    ?_ mat mat' rfl h
  intro m id m' hid hm hstep
  rw [workerRow_col0 DP seq1 M W stray i r m m' id hid hstep row]
  exact hm

theorem threadCompute_col0 (DP : List (List Int)) (seq1 : List Char) (M : Nat) (W : Int)
    (N : Nat) (stray : Int) (mat mat' : List (List Int))
    (h : threadCompute DP seq1 M W N stray mat = .ok mat') (row : Int) :
    load2 mat' row 0 = load2 mat row 0 := by
  unfold threadCompute at h
  refine foldlM_invariant (fun m => load2 m row 0 = load2 mat row 0) _ _
    ?_ mat mat' rfl h
  intro m ir m' _ hm hstep
  rw [round_col0 DP seq1 M W stray ir.1 ir.2 m m' hstep row]
  exact hm

theorem cellValue_zero (prevp : Int) : cellValue 0 prevp 0 = 0 := by
  simp [cellValue, yOf]

theorem ompBody_col0 (DP : List (List Int)) (hDP : ∀ x p, load2 DP x 0 = .ok p → p = 0)
    (x : Option Int) (stray : Int) (mat mat' : List (List Int)) (j : Int)
    (hm : load2 mat 0 0 = .ok 0 ∧ load2 mat 1 0 = .ok 0)
    (h : columnBody DP x 0 1 stray mat j = .ok mat') :
    load2 mat' 0 0 = .ok 0 ∧ load2 mat' 1 0 = .ok 0 := by
  obtain ⟨xv, p, prevj, oldRow, _, hp, hprev, _, hload⟩ :=
    columnBody_eq_ok DP x 0 1 stray mat mat' j h
  constructor
  · rw [hload 0 0, if_neg (fun hc => by simp at hc)]
    exact hm.1
  · rw [hload 1 0]
    by_cases hj : (0 : Int) = j
    · subst hj
      have hp0 : p = 0 := hDP xv p hp
      have hprev0 : prevj = 0 := by
        have h1 : load2 mat 0 0 = Except.ok prevj := hprev
        rw [hm.1] at h1
        injection h1 with h1
        exact h1.symm
      rw [if_pos ⟨by simp, rfl⟩, hp0, hprev0, cellValue_zero]
    · rw [if_neg (fun hc => hj hc.2)]
      exact hm.2

theorem prepareScoreTable_col0 (DP : List (List Int))
    (hDP : ∀ x p, load2 DP x 0 = .ok p → p = 0) (seq1 : List Char) (M : Int) (N : Nat)
    (stray : Int) (mat mat' : List (List Int))
    (hm : load2 mat 0 0 = .ok 0 ∧ load2 mat 1 0 = .ok 0)
    (h : prepareScoreTable DP seq1 M N stray mat = .ok mat') :
    load2 mat' 0 0 = .ok 0 ∧ load2 mat' 1 0 = .ok 0 := by
  unfold prepareScoreTable at h
  refine foldlM_invariant (fun m => load2 m 0 0 = .ok 0 ∧ load2 m 1 0 = .ok 0) _ _
    ?_ mat mat' hm h
  intro m i m' _ hmi hstep
  unfold ompRow at hstep
  cases ha : load seq1 (i - 1) with
  | error e => rw [ha] at hstep; cases hstep
  | ok a =>
    rw [ha] at hstep
    unfold columnLoop at hstep
    exact foldlM_invariant (fun m => load2 m 0 0 = .ok 0 ∧ load2 m 1 0 = .ok 0) _ _
      (fun s j s' _ hs hb => ompBody_col0 DP hDP _ stray s s' j hs hb) m m' hmi hstep

theorem initMat_col0 (M : Nat) (junk : Nat → Int) :
    load2 (initMat M junk) 0 0 = .ok 0 ∧ load2 (initMat M junk) 1 0 = .ok 0 := by
  constructor
  · simp [initMat, load2, load, bind, Except.bind, List.replicate_succ]
  · simp [initMat, load2, load, bind, Except.bind, List.range_succ_eq_map]

theorem callocDP_col0 (M : Nat) (x p : Int) (h : load2 (callocDP M) x 0 = .ok p) : p = 0 := by
  obtain ⟨row, h1, h2⟩ := (load2_eq_ok _ _ _ _).1 h
  have h3 := ((load_eq_ok _ _ _).1 h1).2
  unfold callocDP at h3
  rw [List.getElem?_replicate] at h3
  split at h3
  · injection h3 with h3
    subst h3
    have h4 := ((load_eq_ok _ _ _).1 h2).2
    rw [List.getElem?_replicate] at h4
    split at h4
    · injection h4 with h4
      exact h4.symm
    · cases h4
  · cases h3

theorem builderBody_col0 (seq1 seq2 : List Char) (i j : Int) (DP DP' : List (List Int))
    (h : builderBody seq1 seq2 i j DP = .ok DP') (x : Int) :
    load2 DP' x 0 = load2 DP x 0 := by
  unfold builderBody at h
  by_cases hj : j = 0
  · rw [if_pos hj] at h
    injection h with h
    rw [h]
  · rw [if_neg hj] at h
    have hne : ¬ (x = i ∧ (0 : Int) = j) := fun hc => hj hc.2.symm
    cases h2 : load seq2 (j - 1) with
    | error e => rw [h2] at h; cases h
    | ok c2 =>
      cases h1 : load seq1 i with
      | error e => rw [h2, h1] at h; cases h
      | ok c1 =>
        rw [h2, h1] at h
        simp only [bind, Except.bind] at h
        split at h
        · rw [load2_store2 DP DP' i j j h x 0, if_neg hne]
        · cases hv : load2 DP i (j - 1) with
          | error e => rw [hv] at h; cases h
          | ok v =>
            rw [hv] at h
            rw [load2_store2 DP DP' i j v h x 0, if_neg hne]

/-! ## Claims -/

/-- C1 (violated by the code): the specification's example "ATCG" against
"ATCG" has a longest common subsequence of length 4 by the classic recurrence,
yet for every worker count, every amount of fuel and every content of the
fresh memory the run of `main` stops before a score is read: the builder's
inner loop tests `i<=M` and runs past column `M`. -/
theorem C1_no_score_on_ATCG :
    lcsClassic ATCG ATCG = 4 ∧
    ∀ (fuel : Nat) (W : Int) (junk : Nat → Int) (stray : Int),
      (LCS_threads fuel 4 4 ATCG ATCG W junk stray).isOk = false :=
  ⟨by decide, fun fuel W junk stray => LCS_threads_isOk fuel 4 4 ATCG ATCG W junk stray⟩

/-- C2 (violated by the code): on "ATCG" against "ATCG" no worker count
yields a score; and when the rounds and the final read are run on the table
the specification describes, one worker leaves column 4 unwritten and reads 0
where two workers read 4, because `remaining` is computed with `+`. -/
theorem C2_score_depends_on_worker_count :
    (∀ (fuel : Nat) (W : Int) (junk : Nat → Int) (stray : Int),
      (LCS_threads fuel 4 4 ATCG ATCG W junk stray).isOk = false) ∧
    (threadCompute tableATCG (buffer ATCG) 4 1 4 0 (initMat 4 (fun _ => 0))
      >>= finalRead 4 4) = .ok 0 ∧
    (threadCompute tableATCG (buffer ATCG) 4 2 4 0 (initMat 4 (fun _ => 0))
      >>= finalRead 4 4) = .ok 4 :=
  ⟨fun fuel W junk stray => LCS_threads_isOk fuel 4 4 ATCG ATCG W junk stray, rfl, rfl⟩

/-- C3 (violated by the code): with `M = 4` the single worker of `W = 1`
visits columns 1..3 only and the last worker of `W = 4` visits no column, so
column 4 belongs to no worker in either case; likewise column 1 for
`M = 1`, `W = 1`. -/
theorem C3_partition_misses_columns :
    workerColumns 4 1 0 = [1, 2, 3] ∧ coverCount 4 1 4 = 0 ∧
    workerColumns 4 4 3 = [] ∧ coverCount 4 4 4 = 0 ∧
    workerColumns 1 1 0 = [] ∧ coverCount 1 1 1 = 0 := by
  decide

/-- C4 (violated by the code): for "AT" against "AT" the builder yields no
table, and the body of its scan at class 1 (the symbol A), column 1 compares
`seq2[0]` with `seq1[1]`, which is T, and stores 0 although `seq2[0]` is A. -/
theorem C4_builder_compares_with_seq1 :
    (∀ fuel : Nat,
      (matchIndexBuilder fuel 2 (buffer ['A', 'T']) (buffer ['A', 'T']) (callocDP 2)).isOk
        = false) ∧
    load (buffer ['A', 'T']) 0 = .ok 'A' ∧
    (builderBody (buffer ['A', 'T']) (buffer ['A', 'T']) 1 1 (callocDP 2)
      >>= fun DP => load2 DP 1 1) = .ok 0 :=
  ⟨fun fuel => matchIndexBuilder_isOk fuel 2 _ _ _, rfl, rfl⟩

/-- C5 (violated by the code): for "AAAA" against "TTTT", and for an empty
first sequence against any second sequence, the run of `main` yields no
score at all, for every worker count. -/
theorem C5_no_score_without_common_symbol :
    (∀ (fuel : Nat) (W : Int) (junk : Nat → Int) (stray : Int),
      (LCS_threads fuel 4 4 AAAA TTTT W junk stray).isOk = false) ∧
    (∀ (fuel N : Nat) (seq2 : List Char) (W : Int) (junk : Nat → Int) (stray : Int),
      (LCS_threads fuel 0 N [] seq2 W junk stray).isOk = false) :=
  ⟨fun fuel W junk stray => LCS_threads_isOk fuel 4 4 AAAA TTTT W junk stray,
   fun fuel N seq2 W junk stray => LCS_threads_isOk fuel 0 N [] seq2 W junk stray⟩

/-- C7 (violated by the code): the builder produces no table, whatever the
input: for every column count and every pair of sequences its run stops
before the outer loop is left. -/
theorem C7_no_table_is_produced (fuel M : Nat) (seq1 seq2 : List Char) :
    (matchIndexBuilder fuel (M : Int) (buffer seq1) (buffer seq2) (callocDP M)).isOk
      = false :=
  matchIndexBuilder_isOk fuel M _ _ _

/-- C8: column 0 of both score rows is 0 after the initialisation; every
spawned worker starts at a column of at least 1 and visits no column 0; one
worker's part of a round leaves column 0 of both rows as it was, and so do
any number of whole rounds of the thread and process backends run from the
initial rows; the parallel-loop backend, which recomputes column 0 in every
row, stores 0 there whatever the load before the row returns, as long as
column 0 of the match index is 0, which holds for the zeroed table and is kept
by every pass of the builder's body. -/
theorem C8_column_zero_stays_zero (DP : List (List Int)) (seq1 : List Char) (M N : Nat)
    (W : Int) (stray : Int) (junk : Nat → Int) :
    (load2 (initMat M junk) 0 0 = .ok 0 ∧ load2 (initMat M junk) 1 0 = .ok 0) ∧
    (∀ id ∈ workerIds W, 1 ≤ starting_col M W id ∧ (0 : Int) ∉ workerColumns M W id) ∧
    (∀ (i : Int) (r : Nat × Nat) (mat mat' : List (List Int)) (id : Int),
      id ∈ workerIds W → workerRow DP seq1 M W stray i r mat id = .ok mat' →
        load2 mat' 0 0 = load2 mat 0 0 ∧ load2 mat' 1 0 = load2 mat 1 0) ∧
    (∀ mat', threadCompute DP seq1 M W N stray (initMat M junk) = .ok mat' →
      load2 mat' 0 0 = .ok 0 ∧ load2 mat' 1 0 = .ok 0) ∧
    ((∀ x p, load2 DP x 0 = .ok p → p = 0) →
      ∀ mat', prepareScoreTable DP seq1 M N stray (initMat M junk) = .ok mat' →
        load2 mat' 0 0 = .ok 0 ∧ load2 mat' 1 0 = .ok 0) ∧
    (∀ x p, load2 (callocDP M) x 0 = .ok p → p = 0) ∧
    (∀ (seq2 : List Char) (i j : Int) (T T' : List (List Int)),
      builderBody seq1 seq2 i j T = .ok T' → ∀ x, load2 T' x 0 = load2 T x 0) := by
  refine ⟨initMat_col0 M junk, ?_, ?_, ?_, ?_, callocDP_col0 M, ?_⟩
  · intro id hid
    have hid' := (mem_upTo _ _).1 hid
    have hW : 0 ≤ W := by
      rcases lt_or_le W 0 with hn | hn
      · have h0 : W.toNat = 0 := Int.toNat_eq_zero.2 (le_of_lt hn)
        rw [h0] at hid'
        have := hid'.2
        have := hid'.1
        omega
      · exact hn
    have hs := starting_col_pos M W id hW hid'.1
    refine ⟨hs, fun hmem => ?_⟩
    have := ((mem_columns _ _ _).1 hmem).1
    omega
  · intro i r mat mat' id hid h
    exact ⟨workerRow_col0 DP seq1 M W stray i r mat mat' id hid h 0,
      workerRow_col0 DP seq1 M W stray i r mat mat' id hid h 1⟩
  · intro mat' h
    have h0 := threadCompute_col0 DP seq1 M W N stray _ mat' h 0
    have h1 := threadCompute_col0 DP seq1 M W N stray _ mat' h 1
    rw [h0, h1]
    exact initMat_col0 M junk
  · intro hDP mat' h
    exact prepareScoreTable_col0 DP hDP seq1 M N stray _ mat' (initMat_col0 M junk) h
  · intro seq2 i j T T' h x
    exact builderBody_col0 seq1 seq2 i j T T' h x

/-- Four rounds of two workers, and four rows of the parallel loop, on
"ATCG": both runs end, with 0 in column 0 of both rows. -/
theorem C8_column_zero_witness :
    threadCompute tableATCG (buffer ATCG) 4 2 4 0 (initMat 4 (fun _ => 0))
      = .ok [[0, 1, 2, 3, 4], [0, 1, 2, 3, 3]] ∧
    (load2 [[0, 1, 2, 3, 4], [0, 1, 2, 3, 3]] 0 0 = .ok 0 ∧
      load2 [[0, 1, 2, 3, 4], [0, 1, 2, 3, 3]] 1 0 = .ok 0) ∧
    (∀ x p, load2 (callocDP 4) x 0 = .ok p → p = 0) ∧
    prepareScoreTable (callocDP 4) (buffer ATCG) 4 4 0 (initMat 4 (fun _ => 0))
      = .ok [[0, 0, 0, 0, 0], [0, 0, 0, 0, 0]] ∧
    (load2 [[0, 0, 0, 0, 0], [0, 0, 0, 0, 0]] 0 0 = .ok 0 ∧
      load2 [[0, 0, 0, 0, 0], [0, 0, 0, 0, 0]] 1 0 = .ok 0) :=
  ⟨rfl,
    (C8_column_zero_stays_zero tableATCG (buffer ATCG) 4 4 2 0 (fun _ => 0)).2.2.2.1
      [[0, 1, 2, 3, 4], [0, 1, 2, 3, 3]] rfl,
    (C8_column_zero_stays_zero (callocDP 4) (buffer ATCG) 4 4 2 0 (fun _ => 0)).2.2.2.2.2.1,
    rfl,
    (C8_column_zero_stays_zero (callocDP 4) (buffer ATCG) 4 4 2 0 (fun _ => 0)).2.2.2.2.1
      ((C8_column_zero_stays_zero (callocDP 4) (buffer ATCG) 4 4 2 0
        (fun _ => 0)).2.2.2.2.2.1) [[0, 0, 0, 0, 0], [0, 0, 0, 0, 0]] rfl⟩

/-- C9 (violated by the code): for `M = 1` and "A" against "A" the inner loop
of class 0 does not end after column 1: with fuel for three passes or more it
goes on to column 2 and stores outside `DP[0]`, with less it is still
running. -/
theorem C9_inner_loop_runs_past_M :
    (∀ k : Nat,
      matchIndexBuilder (k + 3) 1 (buffer ['A']) (buffer ['A']) (callocDP 1)
        = .error .outOfBounds) ∧
    (∀ k : Nat, k ≤ 2 →
      matchIndexBuilder k 1 (buffer ['A']) (buffer ['A']) (callocDP 1)
        = .error .noFuel) := by
  refine ⟨fun k => rfl, fun k hk => ?_⟩
  interval_cases k <;> rfl

/-- C10 (violated by the code): with `M = 6` and `W = 2` the last worker is
given the interval [4, 7], and its column loop stops at the store into
column 7 of a row of 7 entries. -/
theorem C10_last_worker_leaves_the_row :
    starting_col 6 2 1 = 4 ∧ ending_col 6 2 1 = 7 ∧
    workerColumns 6 2 1 = [4, 5, 6, 7] ∧
    workerRow (callocDP 6) (buffer ['A', 'A', 'A', 'A', 'A', 'A']) 6 2 0 1 (0, 1)
      (initMat 6 (fun _ => 0)) 1 = .error .outOfBounds :=
  ⟨by decide, by decide, by decide, rfl⟩


/-! ## Lemmas on partition, column loops and the cell value -/

theorem thread_split_nonneg (M : Nat) (W : Int) (hW : 0 ≤ W) : 0 ≤ thread_split M W :=
  Int.tdiv_nonneg (Int.ofNat_nonneg M) hW

theorem workerIds_nonneg (W id : Int) (h : id ∈ workerIds W) : 0 ≤ id ∧ id < W ∧ 0 ≤ W := by
  have h' := (mem_upTo _ _).1 h
  have hW : 0 ≤ W := by
    rcases lt_or_le W 0 with hn | hn
    · have h0 : W.toNat = 0 := Int.toNat_eq_zero.2 (le_of_lt hn)
      rw [h0] at h'
      have := h'.2
      have := h'.1
      omega
    · exact hn
  have hWn : (W.toNat : Int) = W := Int.toNat_of_nonneg hW
  have := h'.2
  exact ⟨h'.1, by omega, hW⟩

theorem workerColumns_lt (M : Nat) (W a b j : Int) (hW : 0 ≤ W) (hab : a < b)
    (hb : b < W) (ha : j ∈ workerColumns M W a) : j ∉ workerColumns M W b := by
  intro hjb
  have h1 := (mem_columns _ _ _).1 ha
  have h2 := (mem_columns _ _ _).1 hjb
  have hs := thread_split_nonneg M W hW
  have hlast : lastFlag W a = false := by
    unfold lastFlag
    exact decide_eq_false (by omega)
  have he : ending_col M W a = thread_split M W * a + 1 + thread_split M W - 1 := by
    unfold ending_col starting_col
    simp only [hlast]
    simp
  have hsb : starting_col M W b = thread_split M W * b + 1 := rfl
  have hmul : thread_split M W * (a + 1) ≤ thread_split M W * b :=
    mul_le_mul_of_nonneg_left (by omega) hs
  have h3 := h1.2
  have h4 := h2.1
  rw [he] at h3
  rw [hsb] at h4
  rw [mul_add, mul_one] at hmul
  omega

theorem getD_eq_of_lt {α : Type} (a : List α) (n : Nat) (d : α) (h : n < a.length) :
    a[n]? = some (a.getD n d) := by
  rw [List.getElem?_eq_getElem h, List.getD_eq_getElem _ _ h]

theorem load_of_lt {α : Type} (a : List α) (k : Int) (d : α) (h0 : 0 ≤ k)
    (hk : k.toNat < a.length) : load a k = .ok (a.getD k.toNat d) :=
  (load_eq_ok a k _).2 ⟨h0, getD_eq_of_lt a k.toNat d hk⟩

theorem length_of_load {α : Type} (a : List α) (k : Int) (v : α) (h : load a k = .ok v) :
    0 ≤ k ∧ k.toNat < a.length := by
  have h' := (load_eq_ok a k v).1 h
  refine ⟨h'.1, ?_⟩
  rcases Nat.lt_or_ge k.toNat a.length with h1 | h1
  · exact h1
  · rw [List.getElem?_eq_none h1] at h'; cases h'.2

theorem columnBody_ok (DP mat : List (List Int)) (xv : Int) (old new M : Nat)
    (dpRow oldRow newRow : List Int) (stray : Int)
    (hR : Ready DP mat xv old new M dpRow oldRow newRow) (j : Int)
    (hj : 0 ≤ j ∧ j ≤ M) :
    columnBody DP (some xv) old new stray mat j
      = .ok (mat.set new (newRow.set j.toNat (valAt dpRow oldRow stray j.toNat))) := by
  obtain ⟨_, hDP, hold, hnew, hdl, hol, hnl⟩ := hR
  have hjn : j.toNat < M + 1 := by
    have : (j.toNat : Int) = j := Int.toNat_of_nonneg hj.1
    omega
  have h1 : load2 DP xv j = .ok (dpRow.getD j.toNat 0) := by
    unfold load2
    rw [hDP]
    exact load_of_lt dpRow j 0 hj.1 (by omega)
  have h2 : load2 mat old j = .ok (oldRow.getD j.toNat 0) := by
    unfold load2
    rw [hold]
    exact load_of_lt oldRow j 0 hj.1 (by omega)
  have h3 : ∀ v, store2 mat new j v = .ok (mat.set new (newRow.set j.toNat v)) := by
    intro v
    refine (store2_eq_ok _ _ _ _ _).2 ⟨newRow, hnew, hj.1, by omega, ?_⟩
    simp
  unfold columnBody
  simp only [pure, Except.pure, bind, Except.bind, h1, h2, hold, h3]
  rfl

theorem set_of_load {α : Type} (a : List α) (n : Nat) (v : α)
    (h : load a (n : Int) = .ok v) : a.set n v = a := by
  have h' := ((load_eq_ok a n v).1 h).2
  simp only [Int.toNat_ofNat] at h'
  apply List.ext_getElem?
  intro m
  rw [List.getElem?_set]
  by_cases hnm : n = m
  · subst hnm
    have hl := (length_of_load a n v h).2
    simp only [Int.toNat_ofNat] at hl
    simp [hl, h']
  · simp [hnm]

theorem getD_set (a : List Int) (n k : Nat) (v : Int) (hn : n < a.length) :
    (a.set n v).getD k 0 = if n = k then v else a.getD k 0 := by
  simp only [List.getD_eq_getElem?_getD, List.getElem?_set]
  by_cases h : n = k
  · subst h
    simp [hn]
  · simp [h]

theorem Ready_step (DP mat : List (List Int)) (xv : Int) (old new M : Nat)
    (dpRow oldRow newRow row1 : List Int)
    (hR : Ready DP mat xv old new M dpRow oldRow newRow) (h1 : row1.length = M + 1) :
    Ready DP (mat.set new row1) xv old new M dpRow oldRow row1 := by
  obtain ⟨hne, hDP, hold, hnew, hdl, hol, hnl⟩ := hR
  have hlen := (length_of_load mat new newRow hnew).2
  simp only [Int.toNat_ofNat] at hlen
  refine ⟨hne, hDP, ?_, ?_, hdl, hol, h1⟩
  · rw [load_set mat new row1 old hlen, if_neg (by omega)]
    exact hold
  · rw [load_set mat new row1 new hlen, if_pos rfl]

theorem foldlM_columnBody (DP : List (List Int)) (xv : Int) (old new M : Nat)
    (dpRow oldRow : List Int) (stray : Int) :
    ∀ (cols : List Int) (mat : List (List Int)) (newRow : List Int),
      Ready DP mat xv old new M dpRow oldRow newRow → (∀ j ∈ cols, 0 ≤ j ∧ j ≤ M) →
      ∃ newRow', cols.foldlM (columnBody DP (some xv) old new stray) mat
          = .ok (mat.set new newRow') ∧ newRow'.length = M + 1 ∧
        ∀ k : Nat, newRow'.getD k 0 =
          if (k : Int) ∈ cols then valAt dpRow oldRow stray k else newRow.getD k 0 := by
  intro cols
  induction cols with
  | nil =>
    intro mat newRow hR _
    refine ⟨newRow, ?_, hR.2.2.2.2.2.2, fun k => by simp⟩
    rw [set_of_load mat new newRow hR.2.2.2.1]
    rfl
  | cons j rest ih =>
    intro mat newRow hR hcols
    have hj := hcols j (List.mem_cons_self _ _)
    have hjn : (j.toNat : Int) = j := Int.toNat_of_nonneg hj.1
    have hnl := hR.2.2.2.2.2.2
    have hlt : j.toNat < newRow.length := by omega
    have hR1 := Ready_step DP mat xv old new M dpRow oldRow newRow
      (newRow.set j.toNat (valAt dpRow oldRow stray j.toNat)) hR
      (by rw [List.length_set]; exact hnl)
    obtain ⟨newRow', hfold, hlen, hval⟩ := ih _ _ hR1
      (fun i hi => hcols i (List.mem_cons_of_mem _ hi))
    refine ⟨newRow', ?_, hlen, ?_⟩
    · rw [List.foldlM_cons, columnBody_ok DP mat xv old new M dpRow oldRow newRow stray hR j hj]
      show List.foldlM _ (mat.set new _) rest = _
      rw [hfold, List.set_set]
    · intro k
      rw [hval k, getD_set _ _ _ _ hlt]
      by_cases hk : (k : Int) ∈ rest
      · simp [hk]
      · by_cases hkj : (k : Int) = j
        · have : j.toNat = k := by omega
          simp [hk, hkj, this]
        · have : j.toNat ≠ k := by omega
          simp [hk, hkj, this]

theorem columnLoop_spec (DP mat : List (List Int)) (xv : Int) (old new M : Nat)
    (dpRow oldRow newRow : List Int) (stray : Int) (s e : Int)
    (hR : Ready DP mat xv old new M dpRow oldRow newRow) (hs : 0 ≤ s) (he : e ≤ M) :
    ∃ newRow', columnLoop DP (some xv) old new stray s e mat = .ok (mat.set new newRow') ∧
      newRow'.length = M + 1 ∧
      ∀ k : Nat, newRow'.getD k 0 =
        if s ≤ (k : Int) ∧ (k : Int) ≤ e then valAt dpRow oldRow stray k
        else newRow.getD k 0 := by
  obtain ⟨newRow', hfold, hlen, hval⟩ :=
    foldlM_columnBody DP xv old new M dpRow oldRow stray (columns s e) mat newRow hR
      (fun j hj => by have := (mem_columns s e j).1 hj; omega)
  refine ⟨newRow', hfold, hlen, fun k => ?_⟩
  rw [hval k]
  simp only [mem_columns]

theorem row_ext (a b : List Int) (hl : a.length = b.length)
    (h : ∀ k : Nat, a.getD k 0 = b.getD k 0) : a = b := by
  apply List.ext_getElem hl
  intro n h1 h2
  have := h n
  rw [List.getD_eq_getElem _ _ h1, List.getD_eq_getElem _ _ h2] at this
  exact this

theorem foldlM_columnBody_congr (DP mat : List (List Int)) (xv : Int) (old new M : Nat)
    (dpRow oldRow newRow : List Int) (stray : Int)
    (hR : Ready DP mat xv old new M dpRow oldRow newRow) (c1 c2 : List Int)
    (h1 : ∀ j ∈ c1, 0 ≤ j ∧ j ≤ M) (h2 : ∀ j ∈ c2, 0 ≤ j ∧ j ≤ M)
    (hmem : ∀ k : Nat, (k : Int) ∈ c1 ↔ (k : Int) ∈ c2) :
    c1.foldlM (columnBody DP (some xv) old new stray) mat
      = c2.foldlM (columnBody DP (some xv) old new stray) mat := by
  obtain ⟨r1, hf1, hl1, hv1⟩ :=
    foldlM_columnBody DP xv old new M dpRow oldRow stray c1 mat newRow hR h1
  obtain ⟨r2, hf2, hl2, hv2⟩ :=
    foldlM_columnBody DP xv old new M dpRow oldRow stray c2 mat newRow hR h2
  have : r1 = r2 := by
    apply row_ext r1 r2 (by rw [hl1, hl2])
    intro k
    rw [hv1 k, hv2 k]
    by_cases hk : (k : Int) ∈ c1
    · rw [if_pos hk, if_pos ((hmem k).1 hk)]
    · rw [if_neg hk, if_neg (fun h => hk ((hmem k).2 h))]
  rw [hf1, hf2, this]

theorem columnLoop_then (DP : List (List Int)) (x : Option Int) (old new : Nat)
    (stray : Int) (s1 e1 s2 e2 : Int) (mat : List (List Int)) :
    (columnLoop DP x old new stray s1 e1 mat >>= columnLoop DP x old new stray s2 e2)
      = (columns s1 e1 ++ columns s2 e2).foldlM (columnBody DP x old new stray) mat := by
  unfold columnLoop
  rw [List.foldlM_append]

theorem sliceUpdates_eq (DP : List (List Int)) (x : Option Int) (old new : Nat)
    (stray : Int) : ∀ (rs : List (Int × Int)) (mat : List (List Int)),
    sliceUpdates DP x old new stray rs mat
      = (allColumns rs).foldlM (columnBody DP x old new stray) mat := by
  intro rs
  induction rs with
  | nil => intro mat; rfl
  | cons r rs ih =>
    intro mat
    unfold sliceUpdates
    rw [List.foldlM_cons]
    show (columnLoop DP x old new stray r.1 r.2 mat >>= fun m =>
      sliceUpdates DP x old new stray rs m) = _
    simp only [allColumns, List.foldlM_append, columnLoop]
    congr 1
    funext m
    exact ih m

theorem mem_allColumns (rs : List (Int × Int)) (j : Int) :
    j ∈ allColumns rs ↔ ∃ r ∈ rs, r.1 ≤ j ∧ j ≤ r.2 := by
  induction rs with
  | nil => simp [allColumns]
  | cons r rs ih =>
    simp only [allColumns, List.mem_append, mem_columns, ih, List.mem_cons, exists_eq_or_imp]

theorem cellValue_eq (a b p : Int) :
    cellValue a b p = if 0 < p ∧ a ≤ b then a + 1 else a := by
  unfold cellValue yOf zOf
  by_cases hp : 0 < p
  · have h1 : 0 - p < 0 := by omega
    rw [if_pos h1]
    by_cases hab : a ≤ b
    · have h2 : ¬ (0 - (a - 1 * b) < 0) := by omega
      have h3 : 0 < p ∧ a ≤ b := ⟨hp, hab⟩
      rw [if_neg h2, if_pos h3]
      simp
    · have h2 : 0 - (a - 1 * b) < 0 := by omega
      have h3 : ¬ (0 < p ∧ a ≤ b) := fun h => hab h.2
      rw [if_pos h2, if_neg h3]
      simp
  · have h1 : ¬ (0 - p < 0) := by omega
    have h3 : ¬ (0 < p ∧ a ≤ b) := fun h => hp h.1
    rw [if_neg h1, if_neg h3]
    simp

theorem peek_of_lt (row : List Int) (k : Int) (stray : Int) (h0 : 0 ≤ k)
    (hk : k.toNat < row.length) : peek row k stray = row.getD k.toNat 0 := by
  unfold peek
  rw [if_neg (by omega), List.getD_eq_getElem _ _ hk, List.getD_eq_getElem _ _ hk]

/-- The run of `main` of the parallel-loop backend stops inside the builder. -/
theorem LCS_omp_isOk (fuel M N : Nat) (seq1 seq2 : List Char) (junk : Nat → Int)
    (stray : Int) : (LCS_omp fuel M N seq1 seq2 junk stray).isOk = false := by
  rw [LCS_omp]
  exact bind_isOk_false _ _ (matchIndexBuilder_isOk fuel M _ _ _)

theorem valAt_eq (dpRow oldRow : List Int) (M : Nat) (stray : Int) (k : Nat)
    (hol : oldRow.length = M + 1) (hdp : TableRow M dpRow) (hk : k ≤ M) :
    valAt dpRow oldRow stray k =
      if 0 < dpRow.getD k 0 ∧ oldRow.getD k 0 ≤ oldRow.getD (dpRow.getD k 0 - 1).toNat 0 then
        oldRow.getD k 0 + 1
      else oldRow.getD k 0 := by
  unfold valAt
  rw [cellValue_eq]
  have hb := hdp.2.2 k hk
  by_cases hp : 0 < dpRow.getD k 0
  · have hidx : (dpRow.getD k 0 - 1).toNat < oldRow.length := by
      have : ((dpRow.getD k 0 - 1).toNat : Int) = dpRow.getD k 0 - 1 :=
        Int.toNat_of_nonneg (by omega)
      omega
    rw [show prevIndex (dpRow.getD k 0) = dpRow.getD k 0 - 1 from rfl,
      peek_of_lt oldRow _ stray (by omega) hidx]
  · have h1 : ¬ (0 < dpRow.getD k 0 ∧
        oldRow.getD k 0 ≤ peek oldRow (prevIndex (dpRow.getD k 0)) stray) := fun h => hp h.1
    have h2 : ¬ (0 < dpRow.getD k 0 ∧
        oldRow.getD k 0 ≤ oldRow.getD (dpRow.getD k 0 - 1).toNat 0) := fun h => hp h.1
    rw [if_neg h1, if_neg h2]

theorem valAt_bounds (dpRow oldRow : List Int) (M : Nat) (stray : Int) (k : Nat)
    (hol : oldRow.length = M + 1) (hdp : TableRow M dpRow) (hk : k ≤ M) :
    oldRow.getD k 0 ≤ valAt dpRow oldRow stray k ∧
      valAt dpRow oldRow stray k ≤ oldRow.getD k 0 + 1 := by
  rw [valAt_eq dpRow oldRow M stray k hol hdp hk]
  split <;> constructor <;> omega

theorem valAt_mono (dpRow oldRow : List Int) (M : Nat) (stray : Int) (a b : Nat)
    (hol : oldRow.length = M + 1)
    (hmono : ∀ a b : Nat, a ≤ b → b ≤ M → oldRow.getD a 0 ≤ oldRow.getD b 0)
    (hdp : TableRow M dpRow) (hab : a ≤ b) (hb : b ≤ M) :
    valAt dpRow oldRow stray a ≤ valAt dpRow oldRow stray b := by
  have hbb := valAt_bounds dpRow oldRow M stray b hol hdp hb
  have hba := valAt_bounds dpRow oldRow M stray a hol hdp (by omega)
  have hle := hmono a b hab hb
  rcases lt_or_eq_of_le hle with hlt | heq
  · omega
  · rw [valAt_eq dpRow oldRow M stray a hol hdp (by omega)]
    split
    · rename_i hinc
      have hpa := hdp.2.2 a (by omega)
      have hpb := hdp.2.2 b hb
      have hpab := hdp.2.1 a b hab hb
      have hia : ((dpRow.getD a 0 - 1).toNat : Int) = dpRow.getD a 0 - 1 :=
        Int.toNat_of_nonneg (by omega)
      have hib : ((dpRow.getD b 0 - 1).toNat : Int) = dpRow.getD b 0 - 1 :=
        Int.toNat_of_nonneg (by omega)
      have hm := hmono (dpRow.getD a 0 - 1).toNat (dpRow.getD b 0 - 1).toNat
        (by omega) (by omega)
      rw [valAt_eq dpRow oldRow M stray b hol hdp hb]
      have : 0 < dpRow.getD b 0 ∧
          oldRow.getD b 0 ≤ oldRow.getD (dpRow.getD b 0 - 1).toNat 0 :=
        ⟨by omega, by omega⟩
      rw [if_pos this]
      omega
    · omega

theorem fullRow_step (DP mat : List (List Int)) (xv : Int) (old new M : Nat)
    (dpRow oldRow newRow : List Int) (stray : Int) (bound : Int)
    (hR : Ready DP mat xv old new M dpRow oldRow newRow)
    (hprev : ScoreRow M bound oldRow) (hdp : TableRow M dpRow)
    (h0 : newRow.getD 0 0 = 0) :
    ∃ cur, columnLoop DP (some xv) old new stray 1 M mat = .ok (mat.set new cur) ∧
      ScoreRow M (bound + 1) cur ∧
      ∀ j : Nat, 1 ≤ j → j ≤ M →
        oldRow.getD j 0 ≤ cur.getD j 0 ∧ cur.getD j 0 ≤ oldRow.getD j 0 + 1 := by
  obtain ⟨cur, hrun, hlen, hval⟩ :=
    columnLoop_spec DP mat xv old new M dpRow oldRow newRow stray 1 M hR (by decide)
      (le_refl _)
  obtain ⟨hol, hz, hmono, hbd⟩ := hprev
  have hin : ∀ k : Nat, 1 ≤ k → k ≤ M → cur.getD k 0 = valAt dpRow oldRow stray k := by
    intro k h1 h2
    rw [hval k, if_pos ⟨by omega, by omega⟩]
  have hc0 : cur.getD 0 0 = 0 := by
    rw [hval 0, if_neg (by simp)]
    exact h0
  refine ⟨cur, hrun, ⟨hlen, hc0, ?_, ?_⟩, ?_⟩
  · intro a b hab hb
    rcases Nat.eq_zero_or_pos a with ha | ha
    · subst ha
      rw [hc0]
      rcases Nat.eq_zero_or_pos b with hb0 | hb0
      · subst hb0
        rw [hc0]
      · rw [hin b hb0 hb]
        have := (valAt_bounds dpRow oldRow M stray b hol hdp hb).1
        have := hmono 0 b (by omega) hb
        omega
    · rw [hin a ha (by omega), hin b (by omega) hb]
      exact valAt_mono dpRow oldRow M stray a b hol hmono hdp hab hb
  · intro k hk
    rcases Nat.eq_zero_or_pos k with hk0 | hk0
    · subst hk0
      rw [hc0]
      have := hbd 0 hk
      omega
    · rw [hin k hk0 hk]
      have := (valAt_bounds dpRow oldRow M stray k hol hdp hk).2
      have := hbd k hk
      omega
  · intro j h1 h2
    rw [hin j h1 h2]
    exact valAt_bounds dpRow oldRow M stray j hol hdp h2

theorem fullRowRounds_inv (DP : List (List Int)) (seq1 : List Char) (M : Nat)
    (stray : Int)
    (hT : ∀ a xv, symbolClass a = some xv → ∃ dpRow, load DP xv = .ok dpRow ∧ TableRow M dpRow) :
    ∀ (is : List Int) (k : Int) (o n : Nat) (mat : List (List Int)),
      RowsInv M k o n mat →
      (∀ i ∈ is, ∃ a xv, load seq1 (i - 1) = .ok a ∧ symbolClass a = some xv) →
      ∃ mat', (schedule is (o, n)).foldlM
          (fun mat ir => do
            let a ← load seq1 (ir.1 - 1)
            columnLoop DP (symbolClass a) ir.2.1 ir.2.2 stray 1 M mat) mat = .ok mat' ∧
        RowsInv M (k + is.length) (swapRoles^[is.length] (o, n)).1
          (swapRoles^[is.length] (o, n)).2 mat' := by
  intro is
  induction is with
  | nil =>
    intro k o n mat hI _
    refine ⟨mat, rfl, ?_⟩
    simpa using hI
  | cons i is ih =>
    intro k o n mat hI hS
    obtain ⟨oldRow, newRow, hne, hold, hnew, hsr, hnl, hn0⟩ := hI
    obtain ⟨a, xv, ha, hx⟩ := hS i (List.mem_cons_self _ _)
    obtain ⟨dpRow, hDP, hdp⟩ := hT a xv hx
    have hR : Ready DP mat xv o n M dpRow oldRow newRow :=
      ⟨hne, hDP, hold, hnew, hdp.1, hsr.1, hnl⟩
    obtain ⟨cur, hrun, hcur, _⟩ :=
      fullRow_step DP mat xv o n M dpRow oldRow newRow stray k hR hsr hdp hn0
    have hR1 := Ready_step DP mat xv o n M dpRow oldRow newRow cur hR hcur.1
    have hI1 : RowsInv M (k + 1) n o (mat.set n cur) :=
      ⟨cur, oldRow, fun h => hne h.symm, hR1.2.2.2.1, hR1.2.2.1, hcur, hsr.1, hsr.2.1⟩
    obtain ⟨mat', hfold, hinv⟩ := ih (k + 1) n o (mat.set n cur) hI1
      (fun j hj => hS j (List.mem_cons_of_mem _ hj))
    refine ⟨mat', ?_, ?_⟩
    · simp only [schedule, List.foldlM_cons, swapRoles_eq]
      rw [ha]
      show (columnLoop DP (symbolClass a) o n stray 1 M mat >>= fun m =>
        List.foldlM _ m (schedule is (n, o))) = _
      rw [hx, hrun]
      exact hfold
    · rw [List.length_cons, Function.iterate_succ_apply, swapRoles_eq]
      have : k + ((is.length + 1 : Nat) : Int) = k + 1 + (is.length : Int) := by
        push_cast; ring
      rw [this]
      exact hinv

theorem initMat_inv (M : Nat) (junk : Nat → Int) : RowsInv M 0 0 1 (initMat M junk) := by
  refine ⟨List.replicate (M + 1) 0, ((List.range (M + 1)).map junk).set 0 0,
    by decide, rfl, rfl, ⟨by simp, by simp, ?_, ?_⟩, by simp, ?_⟩
  · intro a b _ hb
    have ha : a < M + 1 := by omega
    have hb' : b < M + 1 := by omega
    simp [List.getD_eq_getElem?_getD, List.getElem?_replicate, ha, hb']
  · intro k hk
    have hk' : k < M + 1 := by omega
    simp [List.getD_eq_getElem?_getD, List.getElem?_replicate, hk']
  · simp [List.getD_eq_getElem?_getD, List.getElem?_set]

theorem tableATCG_rows (a : Char) (xv : Int) (h : symbolClass a = some xv) :
    ∃ dpRow, load tableATCG xv = .ok dpRow ∧ TableRow 4 dpRow := by
  have hrow : ∀ r : List Int, r ∈ [[0, 1, 1, 1, 1], [0, 0, 2, 2, 2], [0, 0, 0, 3, 3],
      [0, 0, 0, 0, 4]] → TableRow 4 r := by
    intro r hr
    simp only [List.mem_cons, List.mem_singleton, List.not_mem_nil, or_false] at hr
    rcases hr with rfl | rfl | rfl | rfl <;>
      exact ⟨rfl, fun a b hab hb => by interval_cases b <;> interval_cases a <;> decide,
        fun j hj => by interval_cases j <;> decide⟩
  unfold symbolClass at h
  split_ifs at h <;> injection h with h <;> subst h
  · exact ⟨[0, 1, 1, 1, 1], rfl, hrow _ (by simp)⟩
  · exact ⟨[0, 0, 2, 2, 2], rfl, hrow _ (by simp)⟩
  · exact ⟨[0, 0, 0, 3, 3], rfl, hrow _ (by simp)⟩
  · exact ⟨[0, 0, 0, 0, 4], rfl, hrow _ (by simp)⟩

theorem valAt_stray (dpRow oldRow : List Int) (stray stray' : Int) (k : Nat)
    (h1 : (dpRow.getD k 0 - 1).toNat < oldRow.length) :
    valAt dpRow oldRow stray k = valAt dpRow oldRow stray' k := by
  unfold valAt
  rw [cellValue_eq, cellValue_eq]
  by_cases hp : 0 < dpRow.getD k 0
  · rw [show prevIndex (dpRow.getD k 0) = dpRow.getD k 0 - 1 from rfl,
      peek_of_lt oldRow _ stray (by omega) h1, peek_of_lt oldRow _ stray' (by omega) h1]
  · have a1 : ¬ (0 < dpRow.getD k 0 ∧
        oldRow.getD k 0 ≤ peek oldRow (prevIndex (dpRow.getD k 0)) stray) := fun h => hp h.1
    have a2 : ¬ (0 < dpRow.getD k 0 ∧
        oldRow.getD k 0 ≤ peek oldRow (prevIndex (dpRow.getD k 0)) stray') := fun h => hp h.1
    rw [if_neg a1, if_neg a2]

/-! ## Claims, continued -/

/-- C11: two distinct workers of a run with `W` workers are never given a
common column: a column that lies in the interval of worker `a` lies in the
interval of no other worker `b`, whatever `M` and `W` are. -/
theorem C11_intervals_disjoint (M : Nat) (W a b j : Int)
    (ha : a ∈ workerIds W) (hb : b ∈ workerIds W) (hab : a ≠ b)
    (hj : j ∈ workerColumns M W a) : j ∉ workerColumns M W b := by
  have ha' := workerIds_nonneg W a ha
  have hb' := workerIds_nonneg W b hb
  rcases lt_or_gt_of_ne hab with h | h
  · exact workerColumns_lt M W a b j ha'.2.2 h hb'.2.1 hj
  · intro hjb
    exact workerColumns_lt M W b a j ha'.2.2 h ha'.2.1 hjb hj

/-- With `M = 6` and `W = 2` column 2 is worker 0's and not worker 1's. -/
theorem C11_intervals_disjoint_witness : (2 : Int) ∉ workerColumns 6 2 1 :=
  C11_intervals_disjoint 6 2 0 1 2 (by decide) (by decide) (by decide) (by decide)

/-- C12: run on two different rows of `M+1` entries and a class row of `M+1`
entries, one worker's column loop over `[s, e]` with `0 ≤ s` and `e ≤ M`
ends and returns the score rows with row `new` replaced and nothing else
touched: row `old` and every other row are as before (the match index is an
argument that is not returned), the entries of row `new` outside `[s, e]` are
as before, and the entry at a column `k` of `[s, e]` is `valAt`, a function of
row `old` and the class row of the match index in which row `new` does not
occur; for a class row with entries up to `M+1` it does not depend on the
word before the row either. -/
theorem C12_row_update_frame (DP mat : List (List Int)) (xv : Int) (old new M : Nat)
    (dpRow oldRow newRow : List Int) (stray : Int) (s e : Int)
    (hR : Ready DP mat xv old new M dpRow oldRow newRow) (hs : 0 ≤ s) (he : e ≤ M) :
    ∃ newRow', columnLoop DP (some xv) old new stray s e mat = .ok (mat.set new newRow') ∧
      newRow'.length = M + 1 ∧
      load (mat.set new newRow') old = .ok oldRow ∧
      (∀ r : Int, r ≠ (new : Int) → load (mat.set new newRow') r = load mat r) ∧
      (∀ k : Nat, ¬ (s ≤ (k : Int) ∧ (k : Int) ≤ e) → newRow'.getD k 0 = newRow.getD k 0) ∧
      (∀ k : Nat, s ≤ (k : Int) → (k : Int) ≤ e →
        newRow'.getD k 0 = valAt dpRow oldRow stray k) ∧
      (∀ (k : Nat) (stray' : Int), dpRow.getD k 0 ≤ (M : Int) + 1 →
        valAt dpRow oldRow stray k = valAt dpRow oldRow stray' k) := by
  obtain ⟨newRow', hrun, hlen, hval⟩ :=
    columnLoop_spec DP mat xv old new M dpRow oldRow newRow stray s e hR hs he
  have hR1 := Ready_step DP mat xv old new M dpRow oldRow newRow newRow' hR hlen
  have hnl := (length_of_load mat new newRow hR.2.2.2.1).2
  simp only [Int.toNat_ofNat] at hnl
  refine ⟨newRow', hrun, hlen, hR1.2.2.1, ?_, ?_, ?_, ?_⟩
  · intro r hr
    rw [load_set mat new newRow' r hnl, if_neg hr]
  · intro k hk
    rw [hval k, if_neg hk]
  · intro k hk1 hk2
    rw [hval k, if_pos ⟨hk1, hk2⟩]
  · intro k stray' h1
    refine valAt_stray dpRow oldRow stray stray' k ?_
    have hol := hR.2.2.2.2.2.1
    rcases lt_or_le (dpRow.getD k 0 - 1) 0 with hn | hn
    · have : (dpRow.getD k 0 - 1).toNat = 0 := Int.toNat_eq_zero.2 (le_of_lt hn)
      omega
    · have : ((dpRow.getD k 0 - 1).toNat : Int) = dpRow.getD k 0 - 1 :=
        Int.toNat_of_nonneg hn
      omega

/-- Round 1 on the table of "ATCG" (class 1, `old = 0`, `new = 1`) over the
columns 1 and 2 of a fresh row holding 7s. -/
theorem C12_row_update_frame_witness :
    ∃ newRow', columnLoop tableATCG (some 1) 0 1 0 1 2 (initMat 4 (fun _ => 7))
        = .ok ((initMat 4 (fun _ => 7)).set 1 newRow') ∧
      newRow'.length = 4 + 1 ∧
      load ((initMat 4 (fun _ => 7)).set 1 newRow') (0 : Nat) = .ok [0, 0, 0, 0, 0] ∧
      (∀ r : Int, r ≠ ((1 : Nat) : Int) →
        load ((initMat 4 (fun _ => 7)).set 1 newRow') r = load (initMat 4 (fun _ => 7)) r) ∧
      (∀ k : Nat, ¬ (1 ≤ (k : Int) ∧ (k : Int) ≤ 2) →
        newRow'.getD k 0 = [0, 7, 7, 7, 7].getD k 0) ∧
      (∀ k : Nat, 1 ≤ (k : Int) → (k : Int) ≤ 2 →
        newRow'.getD k 0 = valAt [0, 1, 1, 1, 1] [0, 0, 0, 0, 0] 0 k) ∧
      (∀ (k : Nat) (stray' : Int),
        ([0, 1, 1, 1, 1] : List Int).getD k 0 ≤ ((4 : Nat) : Int) + 1 →
        valAt [0, 1, 1, 1, 1] [0, 0, 0, 0, 0] 0 k
          = valAt [0, 1, 1, 1, 1] [0, 0, 0, 0, 0] stray' k) :=
  C12_row_update_frame tableATCG (initMat 4 (fun _ => 7)) 1 0 1 4 [0, 1, 1, 1, 1]
    [0, 0, 0, 0, 0] [0, 7, 7, 7, 7] 0 1 2
    ⟨by decide, rfl, rfl, rfl, rfl, rfl, rfl⟩ (by decide) (by decide)

/-- C13 (violated by the code): on "ATCG" against "ATCG" neither the thread
backend nor the parallel-loop backend yields a score; and run on the same
table and the same rows, the rounds of the thread backend with two workers
end with 4 in the entry that is printed, while the row loop of the
parallel-loop backend, which declares `old = 0` and `new = 1` afresh in every
row and so never writes row 0, ends with 0 there. -/
theorem C13_omp_differs_from_threads :
    (∀ (fuel : Nat) (W : Int) (junk : Nat → Int) (stray : Int),
      (LCS_threads fuel 4 4 ATCG ATCG W junk stray).isOk = false ∧
      (LCS_omp fuel 4 4 ATCG ATCG junk stray).isOk = false) ∧
    (threadCompute tableATCG (buffer ATCG) 4 2 4 0 (initMat 4 (fun _ => 0))
      >>= finalRead 4 4) = .ok 4 ∧
    prepareScoreTable tableATCG (buffer ATCG) 4 4 0 (initMat 4 (fun _ => 0))
      = .ok [[0, 0, 0, 0, 0], [0, 0, 0, 0, 1]] ∧
    (prepareScoreTable tableATCG (buffer ATCG) 4 4 0 (initMat 4 (fun _ => 0))
      >>= finalRead 4 4) = .ok 0 :=
  ⟨fun fuel W junk stray =>
      ⟨LCS_threads_isOk fuel 4 4 ATCG ATCG W junk stray,
       LCS_omp_isOk fuel 4 4 ATCG ATCG junk stray⟩,
    rfl, rfl, rfl⟩

/-- The parallel-loop backend has no barrier and no division by the worker
count; its opening checks do not look at the worker count. -/
theorem ompEntry_worker_count_free (argc W W' : Int) (file1 file2 : Bool) :
    ompEntry argc W file1 file2 = ompEntry argc W' file1 file2 := rfl

/-- C14: let the creation of the barrier return an error number for every
count that is not positive, as the library does (`EINVAL` for 0, and for the
unsigned value a negative `int` converts to).  Then a run of `main` of
`LCS-threads.c` with a wrong argument count or with a worker count that is
not positive leaves through the opening checks with a status that is not 0;
the builder, the division `M/NUM_THREADS` and the workers are not reached. -/
theorem C14_config_errors_rejected (init : Int → Int)
    (hlib : ∀ c : Int, c ≤ 0 → init c ≠ 0) (argc W : Int) (file1 file2 : Bool)
    (fuel M N : Nat) (seq1 seq2 : List Char) (junk : Nat → Int) (stray : Int)
    (hcfg : argc ≠ 4 ∨ W ≤ 0) :
    ∃ status : Int, status ≠ 0 ∧
      threadsEntry init argc W file1 file2 = Entry.exits status ∧
      main_threads init argc W file1 file2 fuel M N seq1 seq2 junk stray
        = MainResult.exited status := by
  have hentry : ∃ status : Int, status ≠ 0 ∧
      threadsEntry init argc W file1 file2 = Entry.exits status := by
    unfold threadsEntry
    by_cases ha : argc ≠ 4
    · exact ⟨1, by decide, by rw [if_pos ha]⟩
    · rw [if_neg ha]
      by_cases hf : (!file1 || !file2) = true
      · exact ⟨1, by decide, by rw [if_pos hf]⟩
      · rw [if_neg hf]
        have hW : W ≤ 0 := by
          rcases hcfg with h | h
          · exact absurd h ha
          · exact h
        exact ⟨init W, hlib W hW, by rw [if_pos (hlib W hW)]⟩
  obtain ⟨status, h0, he⟩ := hentry
  refine ⟨status, h0, he, ?_⟩
  unfold main_threads
  rw [he]

/-- Four arguments, both files and the worker count 0, with a barrier
creation that returns 22 for every count that is not positive: `main` leaves
with a status that is not 0. -/
theorem C14_config_errors_rejected_witness :
    ∃ status : Int, status ≠ 0 ∧
      threadsEntry (fun c => if c ≤ 0 then 22 else 0) 4 0 true true = Entry.exits status ∧
      main_threads (fun c => if c ≤ 0 then 22 else 0) 4 0 true true 10 4 4 ATCG ATCG
        (fun _ => 0) 0 = MainResult.exited status :=
  C14_config_errors_rejected (fun c => if c ≤ 0 then 22 else 0)
    (fun c hc => by simp [hc]) 4 0 true true 10 4 4 ATCG ATCG (fun _ => 0) 0
    (Or.inr (by decide))

/-- C16: for a previous row of `M+1` entries that is non-decreasing over the
columns `0 .. M`, a column `j` of `[1, M]` and a last-match position `p` with
`0 ≤ p ≤ j`, the value `previous[j] + y*(z^1)` the row engine stores equals
`previous[j]` when `p = 0` (whatever the load before the row returns) and the
larger of `previous[j]` and `previous[p-1] + 1` when `p > 0`. -/
theorem C16_branchless_is_max (row : List Int) (M : Nat) (stray : Int) (j p : Nat)
    (hlen : row.length = M + 1)
    (hmono : ∀ a b : Nat, a ≤ b → b ≤ M → row.getD a 0 ≤ row.getD b 0)
    (hj : 1 ≤ j ∧ j ≤ M) (hp : p ≤ j) :
    cellValue (row.getD j 0) (peek row (prevIndex (p : Int)) stray) (p : Int) =
      if p = 0 then row.getD j 0 else max (row.getD j 0) (row.getD (p - 1) 0 + 1) := by
  rw [cellValue_eq]
  by_cases hp0 : p = 0
  · subst hp0
    simp
  · have hpos : (0 : Int) < (p : Int) := by omega
    have hidx : (prevIndex (p : Int)).toNat = p - 1 := by
      unfold prevIndex
      omega
    have hpk : peek row (prevIndex (p : Int)) stray = row.getD (p - 1) 0 := by
      rw [peek_of_lt row _ stray (by unfold prevIndex; omega) (by rw [hidx]; omega), hidx]
    have hle := hmono (p - 1) j (by omega) hj.2
    rw [hpk, if_neg hp0]
    by_cases hc : row.getD j 0 ≤ row.getD (p - 1) 0
    · rw [if_pos ⟨hpos, hc⟩]
      have : row.getD j 0 = row.getD (p - 1) 0 := le_antisymm hc hle
      rw [this]
      exact (max_eq_right (by omega)).symm
    · rw [if_neg (fun h => hc h.2)]
      exact (max_eq_left (by omega)).symm

/-- The row [0, 1, 1, 2, 2] at column 3: last match at 3 gives 2, the larger
of 2 and 1 + 1. -/
theorem C16_branchless_is_max_witness :
    cellValue ([0, 1, 1, 2, 2].getD 3 0) (peek [0, 1, 1, 2, 2] (prevIndex ((3 : Nat) : Int)) 9)
        ((3 : Nat) : Int) =
      if 3 = 0 then [0, 1, 1, 2, 2].getD 3 0
      else max ([0, 1, 1, 2, 2].getD 3 0) ([0, 1, 1, 2, 2].getD (3 - 1) 0 + 1) :=
  C16_branchless_is_max [0, 1, 1, 2, 2] 4 9 3 3 rfl
    (fun a b hab hb => by
      interval_cases b <;> interval_cases a <;> decide)
    (by decide) (by decide)

/-- C17 (violated by the code): where the class row of the match index holds
0 (class 2 at column 1 of the table of "ATCG", and every entry of the zeroed
table), the row update reads the previous row at index -1, which is
outside the row: a checked load stops there, and the unchecked load returns
the word before the row. -/
theorem C17_reads_before_the_row :
    load2 tableATCG 2 1 = .ok 0 ∧ load2 (callocDP 4) 1 1 = .ok 0 ∧
    prevIndex 0 = -1 ∧
    load [0, 1, 1, 1, 0] (prevIndex 0) = .error Stop.outOfBounds ∧
    ∀ stray : Int, peek [0, 1, 1, 1, 0] (prevIndex 0) stray = stray :=
  ⟨rfl, rfl, rfl, rfl, fun _ => rfl⟩

/-- C18 (violated by the code): with `M = 3`, "ATC" and `N = 1`, "A", the
builder's scan at column 2 reads `seq2[1]`, which is the terminating byte
behind the one symbol of the second sequence, and at column 3 reads `seq2[2]`,
outside the buffer; with `M = 2`, "AT" and `N = 4`, "ATCG", round 3 of the
worker reads `seq1[2]`, the terminating byte behind the two symbols of the
first sequence, for which no class is assigned, and round 4 reads `seq1[3]`,
outside the buffer. -/
theorem C18_reads_past_the_sequences :
    load (buffer ['A']) (2 - 1) = .ok NUL ∧
    builderBody (buffer ['A', 'T', 'C']) (buffer ['A']) 0 3 (callocDP 3)
      = .error Stop.outOfBounds ∧
    load (buffer ['A', 'T']) (3 - 1) = .ok NUL ∧ symbolClass NUL = none ∧
    workerRow (callocDP 2) (buffer ['A', 'T']) 2 1 0 3 (0, 1) (initMat 2 (fun _ => 0)) 0
      = .error Stop.uninitialised ∧
    workerRow (callocDP 2) (buffer ['A', 'T']) 2 1 0 4 (1, 0) (initMat 2 (fun _ => 0)) 0
      = .error Stop.outOfBounds :=
  ⟨rfl, rfl, rfl, by decide, rfl, rfl⟩

/-- C19: on two different rows of `M+1` entries and a class row of `M+1`
entries, the column loops over two ranges within `[1, M]` (disjoint or not)
give the same rows in either order, namely the rows in which exactly the
columns of the two ranges of row `new` hold `valAt`; and the column loops of
any list of workers whose ranges lie in `[1, M]` and together contain every
column of `[1, M]`, taken in the order of the list, whatever it is, give the
rows of the single column loop over `[1, M]`. -/
theorem C19_slices_commute (DP mat : List (List Int)) (xv : Int) (old new M : Nat)
    (dpRow oldRow newRow : List Int) (stray : Int) (s1 e1 s2 e2 : Int)
    (hR : Ready DP mat xv old new M dpRow oldRow newRow)
    (h1 : 1 ≤ s1 ∧ e1 ≤ M) (h2 : 1 ≤ s2 ∧ e2 ≤ M) :
    (columnLoop DP (some xv) old new stray s1 e1 mat
        >>= columnLoop DP (some xv) old new stray s2 e2)
      = (columnLoop DP (some xv) old new stray s2 e2 mat
        >>= columnLoop DP (some xv) old new stray s1 e1) ∧
    (∃ row', (columnLoop DP (some xv) old new stray s1 e1 mat
        >>= columnLoop DP (some xv) old new stray s2 e2) = .ok (mat.set new row') ∧
      ∀ k : Nat, row'.getD k 0 =
        if (s1 ≤ (k : Int) ∧ (k : Int) ≤ e1) ∨ (s2 ≤ (k : Int) ∧ (k : Int) ≤ e2) then
          valAt dpRow oldRow stray k
        else newRow.getD k 0) ∧
    (∀ rs : List (Int × Int), (∀ r ∈ rs, 1 ≤ r.1 ∧ r.2 ≤ M) →
      (∀ k : Int, 1 ≤ k → k ≤ M → ∃ r ∈ rs, r.1 ≤ k ∧ k ≤ r.2) →
      sliceUpdates DP (some xv) old new stray rs mat
        = columnLoop DP (some xv) old new stray 1 M mat) := by
  have hin1 : ∀ j ∈ columns s1 e1, 0 ≤ j ∧ j ≤ (M : Int) := fun j hj => by
    have := (mem_columns s1 e1 j).1 hj; omega
  have hin2 : ∀ j ∈ columns s2 e2, 0 ≤ j ∧ j ≤ (M : Int) := fun j hj => by
    have := (mem_columns s2 e2 j).1 hj; omega
  have hin12 : ∀ j ∈ columns s1 e1 ++ columns s2 e2, 0 ≤ j ∧ j ≤ (M : Int) := fun j hj => by
    rcases List.mem_append.1 hj with h | h
    · exact hin1 j h
    · exact hin2 j h
  have hin21 : ∀ j ∈ columns s2 e2 ++ columns s1 e1, 0 ≤ j ∧ j ≤ (M : Int) := fun j hj => by
    rcases List.mem_append.1 hj with h | h
    · exact hin2 j h
    · exact hin1 j h
  refine ⟨?_, ?_, ?_⟩
  · rw [columnLoop_then, columnLoop_then]
    exact foldlM_columnBody_congr DP mat xv old new M dpRow oldRow newRow stray hR _ _
      hin12 hin21 (fun k => by simp only [List.mem_append]; exact or_comm)
  · rw [columnLoop_then]
    obtain ⟨row', hf, _, hv⟩ :=
      foldlM_columnBody DP xv old new M dpRow oldRow stray _ mat newRow hR hin12
    refine ⟨row', hf, fun k => ?_⟩
    rw [hv k]
    simp only [List.mem_append, mem_columns]
  · intro rs hrs hcover
    rw [sliceUpdates_eq]
    unfold columnLoop
    refine foldlM_columnBody_congr DP mat xv old new M dpRow oldRow newRow stray hR _ _
      ?_ ?_ ?_
    · intro j hj
      obtain ⟨r, hr, hj1, hj2⟩ := (mem_allColumns rs j).1 hj
      have := hrs r hr
      omega
    · intro j hj
      have := (mem_columns 1 M j).1 hj
      omega
    · intro k
      rw [mem_allColumns, mem_columns]
      constructor
      · rintro ⟨r, hr, hj1, hj2⟩
        have := hrs r hr
        omega
      · intro hk
        exact hcover k hk.1 hk.2

/-- Round 1 on the table of "ATCG": the ranges [1, 2] and [3, 4] in either
order, and the two slices against the loop over [1, 4]. -/
theorem C19_slices_commute_witness :
    ((columnLoop tableATCG (some 1) 0 1 0 1 2 (initMat 4 (fun _ => 7))
        >>= columnLoop tableATCG (some 1) 0 1 0 3 4)
      = (columnLoop tableATCG (some 1) 0 1 0 3 4 (initMat 4 (fun _ => 7))
        >>= columnLoop tableATCG (some 1) 0 1 0 1 2)) ∧
    sliceUpdates tableATCG (some 1) 0 1 0 [(3, 4), (1, 2)] (initMat 4 (fun _ => 7))
      = columnLoop tableATCG (some 1) 0 1 0 1 (4 : Nat) (initMat 4 (fun _ => 7)) :=
  ⟨(C19_slices_commute tableATCG (initMat 4 (fun _ => 7)) 1 0 1 4 [0, 1, 1, 1, 1]
      [0, 0, 0, 0, 0] [0, 7, 7, 7, 7] 0 1 2 3 4
      ⟨by decide, rfl, rfl, rfl, rfl, rfl, rfl⟩ (by decide) (by decide)).1,
    (C19_slices_commute tableATCG (initMat 4 (fun _ => 7)) 1 0 1 4 [0, 1, 1, 1, 1]
      [0, 0, 0, 0, 0] [0, 7, 7, 7, 7] 0 1 2 3 4
      ⟨by decide, rfl, rfl, rfl, rfl, rfl, rfl⟩ (by decide) (by decide)).2.2
      [(3, 4), (1, 2)] (by decide)
      (fun k hk1 hk2 => by
        by_cases h : k ≤ 2
        · exact ⟨(1, 2), by simp, by simp; omega⟩
        · exact ⟨(3, 4), by simp, by simp; omega⟩)⟩

/-- C20: for a previous row with 0 in column 0 that is non-decreasing over the
columns `0 .. M` and a class row of the match index that is non-decreasing
with entries between 0 and their column, the column loop over the whole row
`1 .. M` ends, the row it writes (column 0 holding 0) is again non-decreasing
and every entry is the previous one or the previous one plus 1; hence, when
every class row of the table is of that kind and the first `N` symbols of
`seq1` have a class, `N` whole-row rounds from the initial rows end and the
row the score is read from is a non-decreasing row with entries in `[0, N]`. -/
theorem C20_full_row_update_shape (DP : List (List Int)) (seq1 : List Char) (M N : Nat)
    (stray : Int) (junk : Nat → Int)
    (hT : ∀ a xv, symbolClass a = some xv →
      ∃ dpRow, load DP xv = .ok dpRow ∧ TableRow M dpRow)
    (hS : ∀ i : Nat, i < N → ∃ a xv, load seq1 (i : Int) = .ok a ∧ symbolClass a = some xv) :
    (∀ (mat : List (List Int)) (xv : Int) (old new : Nat) (dpRow oldRow newRow : List Int)
        (bound : Int),
      Ready DP mat xv old new M dpRow oldRow newRow → ScoreRow M bound oldRow →
      TableRow M dpRow → newRow.getD 0 0 = 0 →
      ∃ cur, columnLoop DP (some xv) old new stray 1 M mat = .ok (mat.set new cur) ∧
        ScoreRow M (bound + 1) cur ∧
        ∀ j : Nat, 1 ≤ j → j ≤ M →
          oldRow.getD j 0 ≤ cur.getD j 0 ∧ cur.getD j 0 ≤ oldRow.getD j 0 + 1) ∧
    ∃ mat' row, fullRowRounds DP seq1 M N stray (initMat M junk) = .ok mat' ∧
      load mat' (finalRow N : Int) = .ok row ∧ ScoreRow M N row ∧
      ∀ k : Nat, k ≤ M → 0 ≤ row.getD k 0 ∧ row.getD k 0 ≤ (N : Int) := by
  refine ⟨fun mat xv old new dpRow oldRow newRow bound hR hprev hdp h0 =>
    fullRow_step DP mat xv old new M dpRow oldRow newRow stray bound hR hprev hdp h0, ?_⟩
  have hS' : ∀ i ∈ roundIndices N,
      ∃ a xv, load seq1 (i - 1) = .ok a ∧ symbolClass a = some xv := by
    intro i hi
    unfold roundIndices at hi
    obtain ⟨k, hk, rfl⟩ := List.mem_map.1 hi
    have := hS k (List.mem_range.1 hk)
    simpa using this
  obtain ⟨mat', hrun, hinv⟩ :=
    fullRowRounds_inv DP seq1 M stray hT (roundIndices N) 0 0 1 (initMat M junk)
      (initMat_inv M junk) hS'
  have hlen : (roundIndices N).length = N := by simp [roundIndices]
  rw [hlen, iterate_swapRoles] at hinv
  obtain ⟨oldRow, _, _, hold, _, hsr, _, _⟩ := hinv
  have hf : finalRow N = N % 2 := by
    unfold finalRow
    rcases Nat.mod_two_eq_zero_or_one N with h | h <;> simp [h]
  have hsr' : ScoreRow M N oldRow := by simpa using hsr
  refine ⟨mat', oldRow, hrun, by rw [hf]; exact hold, hsr', fun k hk => ⟨?_, hsr'.2.2.2 k hk⟩⟩
  have := hsr'.2.2.1 0 k (Nat.zero_le k) hk
  rw [hsr'.2.1] at this
  exact this

/-- Four whole-row rounds of "ATCG" on the table of "ATCG" end, and the row
the score is read from is a score row with entries in `[0, 4]`. -/
theorem C20_full_row_update_shape_witness :
    ∃ mat' row, fullRowRounds tableATCG (buffer ATCG) (4 : Nat) 4 0 (initMat 4 (fun _ => 7))
        = .ok mat' ∧
      load mat' (finalRow 4 : Int) = .ok row ∧ ScoreRow 4 (4 : Nat) row ∧
      ∀ k : Nat, k ≤ 4 → 0 ≤ row.getD k 0 ∧ row.getD k 0 ≤ ((4 : Nat) : Int) :=
  (C20_full_row_update_shape tableATCG (buffer ATCG) 4 4 0 (fun _ => 7) tableATCG_rows
    (fun i hi => by
      interval_cases i
      · exact ⟨'A', 1, rfl, by decide⟩
      · exact ⟨'T', 2, rfl, by decide⟩
      · exact ⟨'C', 3, rfl, by decide⟩
      · exact ⟨'G', 4, rfl, by decide⟩)).2


/-! ## Rounds, their roles and their stores -/

theorem schedule_eq_map (N : Nat) :
    schedule (roundIndices N) (0, 1)
      = (List.range N).map (fun (k : Nat) => ((k : Int) + 1, (k % 2, (k + 1) % 2))) := by
  apply List.ext_getElem?
  intro k
  rw [schedule_getElem?, List.getElem?_map]
  by_cases hk : k < N
  · rw [roundIndices_getElem? N k hk, List.getElem?_range hk, iterate_swapRoles]
    rfl
  · have h1 : (roundIndices N)[k]? = none :=
      List.getElem?_eq_none (by simp [roundIndices]; omega)
    have h2 : (List.range N)[k]? = none :=
      List.getElem?_eq_none (by simp; omega)
    rw [h1, h2]
    rfl

theorem threadCompute_eq_rounds (DP : List (List Int)) (seq1 : List Char) (M W : Int)
    (N : Nat) (stray : Int) (mat : List (List Int)) :
    threadCompute DP seq1 M W N stray mat
      = (List.range N).foldlM
          (fun m (k : Nat) => round DP seq1 M W stray ((k : Int) + 1) (k % 2, (k + 1) % 2) m)
          mat := by
  unfold threadCompute
  rw [schedule_eq_map, List.foldlM_map]

theorem threadCompute_succ (DP : List (List Int)) (seq1 : List Char) (M W : Int)
    (k : Nat) (stray : Int) (mat : List (List Int)) :
    threadCompute DP seq1 M W (k + 1) stray mat
      = (threadCompute DP seq1 M W k stray mat
          >>= round DP seq1 M W stray ((k : Int) + 1) (k % 2, (k + 1) % 2)) := by
  rw [threadCompute_eq_rounds, threadCompute_eq_rounds, List.range_succ, List.foldlM_append]
  congr 1
  funext m
  simp [List.foldlM_cons, List.foldlM_nil]

theorem finalRead_eq (N M : Nat) (mat : List (List Int)) :
    finalRead N M mat = load2 mat ((N % 2 : Nat) : Int) (M : Int) := by
  unfold finalRead finalRow
  rcases Nat.mod_two_eq_zero_or_one N with h | h <;> simp [h]


theorem columnBody_store (DP : List (List Int)) (x : Option Int) (old new : Nat)
    (stray : Int) (s s1 : List (List Int)) (j : Int)
    (h : columnBody DP x old new stray s j = .ok s1) :
    ∃ v newRow, CellFrom DP x old stray s j v ∧ load s new = .ok newRow ∧
      s1 = s.set new (newRow.set j.toNat v) ∧
      ∀ r k : Int, load2 s1 r k = if r = (new : Int) ∧ k = j then .ok v else load2 s r k := by
  unfold columnBody at h
  cases x with
  | none => cases h
  | some xv =>
    cases hp : load2 DP xv j with
    | error e => simp [bind, Except.bind, pure, Except.pure, hp] at h
    | ok p =>
      cases hprev : load2 s old j with
      | error e => simp [bind, Except.bind, pure, Except.pure, hp, hprev] at h
      | ok prevj =>
        cases hrow : load s old with
        | error e => simp [bind, Except.bind, pure, Except.pure, hp, hprev, hrow] at h
        | ok oldRow =>
          simp only [bind, Except.bind, pure, Except.pure, hp, hprev, hrow] at h
          obtain ⟨newRow, hnew, _, _, hs1⟩ := (store2_eq_ok _ _ _ _ _).1 h
          refine ⟨_, newRow, ⟨xv, p, prevj, oldRow, rfl, hp, hprev, hrow, rfl⟩, hnew, ?_,
            fun r k => load2_store2 s s1 _ _ _ h r k⟩
          rw [hs1]
          simp

theorem CellFrom_congr (DP : List (List Int)) (x : Option Int) (old : Nat) (stray : Int)
    (s s1 : List (List Int)) (k v : Int) (h1 : load s1 old = load s old)
    (h2 : load2 s1 old k = load2 s old k) :
    CellFrom DP x old stray s1 k v ↔ CellFrom DP x old stray s k v := by
  unfold CellFrom
  rw [h1, h2]

theorem foldlM_columnBody_stores (DP : List (List Int)) (x : Option Int) (old new : Nat)
    (stray : Int) (hne : old ≠ new) :
    ∀ (cols : List Int) (s s' : List (List Int)),
      cols.foldlM (columnBody DP x old new stray) s = .ok s' →
      (∀ r : Int, r ≠ (new : Int) → load s' r = load s r) ∧
      (∀ k : Int, k ∉ cols → load2 s' new k = load2 s new k) ∧
      (∀ k ∈ cols, ∃ v, CellFrom DP x old stray s k v ∧ load2 s' new k = .ok v) := by
  intro cols
  induction cols with
  | nil =>
    intro s s' h
    simp only [List.foldlM_nil, pure, Except.pure, Except.ok.injEq] at h
    subst h
    exact ⟨fun _ _ => rfl, fun _ _ => rfl, fun k hk => absurd hk (List.not_mem_nil k)⟩
  | cons j rest ih =>
    intro s s' h
    rw [List.foldlM_cons] at h
    cases hb : columnBody DP x old new stray s j with
    | error e => rw [hb] at h; cases h
    | ok s1 =>
      rw [hb] at h
      obtain ⟨v, newRow, hcell, hnew, hs1, hload2⟩ :=
        columnBody_store DP x old new stray s s1 j hb
      have hlen := (length_of_load s new newRow hnew).2
      simp only [Int.toNat_ofNat] at hlen
      have hrow : ∀ r : Int, r ≠ (new : Int) → load s1 r = load s r := by
        intro r hr
        rw [hs1, load_set s new _ r hlen, if_neg hr]
      have hon : (old : Int) ≠ (new : Int) := by omega
      have hcong : ∀ k w, CellFrom DP x old stray s1 k w ↔ CellFrom DP x old stray s k w :=
        fun k w => CellFrom_congr DP x old stray s s1 k w (hrow old hon)
          (by rw [hload2 old k, if_neg (fun hc => hon hc.1)])
      obtain ⟨i1, i2, i3⟩ := ih s1 s' h
      refine ⟨fun r hr => by rw [i1 r hr, hrow r hr], ?_, ?_⟩
      · intro k hk
        have hkj : k ≠ j := fun e => hk (e ▸ List.mem_cons_self _ _)
        have hkr : k ∉ rest := fun e => hk (List.mem_cons_of_mem _ e)
        rw [i2 k hkr, hload2 new k, if_neg (fun hc => hkj hc.2)]
      · intro k hk
        by_cases hkr : k ∈ rest
        · obtain ⟨w, hw, hl⟩ := i3 k hkr
          exact ⟨w, (hcong k w).1 hw, hl⟩
        · have hkj : k = j := by
            rcases List.mem_cons.1 hk with e | e
            · exact e
            · exact absurd e hkr
          subst hkj
          refine ⟨v, hcell, ?_⟩
          rw [i2 k hkr, hload2 new k, if_pos ⟨rfl, rfl⟩]


theorem round_eq_sliceUpdates (DP : List (List Int)) (seq1 : List Char) (M W : Int)
    (stray : Int) (i : Int) (r : Nat × Nat) (m : List (List Int)) (a : Char)
    (ha : load seq1 (i - 1) = .ok a) :
    round DP seq1 M W stray i r m
      = sliceUpdates DP (symbolClass a) r.1 r.2 stray
          ((workerIds W).map (fun id => (starting_col M W id, ending_col M W id))) m := by
  unfold round sliceUpdates
  rw [List.foldlM_map]
  congr 1
  funext s id
  unfold workerRow
  rw [ha]
  rfl

theorem mem_workerRanges (M W k : Int) :
    k ∈ allColumns ((workerIds W).map (fun id => (starting_col M W id, ending_col M W id)))
      ↔ ∃ id ∈ workerIds W, k ∈ workerColumns M W id := by
  rw [mem_allColumns]
  constructor
  · rintro ⟨r, hr, h1, h2⟩
    obtain ⟨id, hid, rfl⟩ := List.mem_map.1 hr
    exact ⟨id, hid, (mem_columns _ _ _).2 ⟨h1, h2⟩⟩
  · rintro ⟨id, hid, hk⟩
    have := (mem_columns _ _ _).1 hk
    exact ⟨_, List.mem_map.2 ⟨id, hid, rfl⟩, this.1, this.2⟩

theorem round_stores (DP : List (List Int)) (seq1 : List Char) (M W : Int)
    (stray : Int) (i : Int) (old new : Nat) (hne : old ≠ new) (m m' : List (List Int))
    (h : round DP seq1 M W stray i (old, new) m = .ok m') :
    (∀ r : Int, r ≠ (new : Int) → load m' r = load m r) ∧
    (∀ k : Int, (∀ id ∈ workerIds W, k ∉ workerColumns M W id) →
      load2 m' new k = load2 m new k) ∧
    (∀ id ∈ workerIds W, ∀ k ∈ workerColumns M W id,
      ∃ a v, load seq1 (i - 1) = .ok a ∧ CellFrom DP (symbolClass a) old stray m k v ∧
        load2 m' new k = .ok v) := by
  cases ha : load seq1 (i - 1) with
  | error e =>
    unfold round at h
    cases hw : workerIds W with
    | nil =>
      rw [hw] at h
      simp only [List.foldlM_nil, pure, Except.pure, Except.ok.injEq] at h
      subst h
      exact ⟨fun _ _ => rfl, fun _ _ => rfl, fun id hid => absurd hid (List.not_mem_nil id)⟩
    | cons id ids =>
      rw [hw, List.foldlM_cons] at h
      unfold workerRow at h
      rw [ha] at h
      cases h
  | ok a =>
    rw [round_eq_sliceUpdates DP seq1 M W stray i (old, new) m a ha, sliceUpdates_eq] at h
    obtain ⟨h1, h2, h3⟩ := foldlM_columnBody_stores DP (symbolClass a) old new stray hne _ m m' h
    refine ⟨h1, ?_, ?_⟩
    · intro k hk
      apply h2 k
      intro hmem
      obtain ⟨id, hid, hkid⟩ := (mem_workerRanges M W k).1 hmem
      exact hk id hid hkid
    · intro id hid k hk
      obtain ⟨v, hv, hl⟩ := h3 k ((mem_workerRanges M W k).2 ⟨id, hid, hk⟩)
      exact ⟨a, v, rfl, hv, hl⟩


/-- C6: with `old = 0`, `new = 1` at the start and the exchange after every
round, the run of `N` rounds is the rounds `1 .. N` in order, round `k+1`
holding `old = k mod 2` and `new = (k+1) mod 2`; so round `i` with
`1 ≤ i ≤ N` comes after the `i-1` earlier rounds with `new = i mod 2` and
`old = (i+1) mod 2`.  A round `i` that ends has stored into row `i mod 2`
only: every other row is as before, the entries of row `i mod 2` at columns
of no worker are as before, and the entry at a column of a worker holds the
value lines 163-165 compute from the match index and row `(i+1) mod 2` as it
was before the round.  The value the coordinator prints after `N` rounds is
the entry at column `M` of row `N mod 2`, the row round `N` has stored
into. -/
theorem C6_round_roles (DP : List (List Int)) (seq1 : List Char) (M : Nat) (W : Int)
    (stray : Int) (N i : Nat) (h1 : 1 ≤ i) (hN : i ≤ N) :
    (schedule (roundIndices N) (0, 1)).length = N ∧
    (schedule (roundIndices N) (0, 1))[i - 1]? = some ((i : Int), ((i + 1) % 2, i % 2)) ∧
    (schedule (roundIndices N) (0, 1))[N - 1]? =
      some ((N : Int), ((N + 1) % 2, finalRow N)) ∧
    (∀ mat, threadCompute DP seq1 M W N stray mat
      = (List.range N).foldlM
          (fun m (k : Nat) => round DP seq1 M W stray ((k : Int) + 1) (k % 2, (k + 1) % 2) m)
          mat) ∧
    (∀ mat, threadCompute DP seq1 M W i stray mat
      = (threadCompute DP seq1 M W (i - 1) stray mat
          >>= round DP seq1 M W stray (i : Int) ((i + 1) % 2, i % 2))) ∧
    (∀ m m', round DP seq1 M W stray (i : Int) ((i + 1) % 2, i % 2) m = .ok m' →
      (∀ r : Int, r ≠ ((i % 2 : Nat) : Int) → load m' r = load m r) ∧
      (∀ k : Int, (∀ id ∈ workerIds W, k ∉ workerColumns M W id) →
        load2 m' ((i % 2 : Nat) : Int) k = load2 m ((i % 2 : Nat) : Int) k) ∧
      (∀ id ∈ workerIds W, ∀ k ∈ workerColumns M W id,
        ∃ a v, load seq1 ((i : Int) - 1) = .ok a ∧
          CellFrom DP (symbolClass a) ((i + 1) % 2) stray m k v ∧
          load2 m' ((i % 2 : Nat) : Int) k = .ok v)) ∧
    (∀ mat, (threadCompute DP seq1 M W N stray mat >>= finalRead N M)
      = (threadCompute DP seq1 M W (N - 1) stray mat >>= fun m =>
          round DP seq1 M W stray (N : Int) ((N + 1) % 2, N % 2) m >>= fun m' =>
            load2 m' ((N % 2 : Nat) : Int) (M : Int))) := by
  have key : ∀ k : Nat, 1 ≤ k → k ≤ N →
      (schedule (roundIndices N) (0, 1))[k - 1]? = some ((k : Int), ((k + 1) % 2, k % 2)) := by
    intro k hk1 hkN
    rw [schedule_getElem?, roundIndices_getElem? N (k - 1) (by omega), iterate_swapRoles]
    have e1 : ((k - 1 : Nat) : Int) + 1 = (k : Int) := by omega
    have e2 : (k - 1) % 2 = (k + 1) % 2 := by omega
    have e3 : (k - 1 + 1) % 2 = k % 2 := by rw [Nat.sub_add_cancel hk1]
    simp only [Option.map_some', e1, e2, e3]
  have snoc : ∀ (n : Nat) (mat : List (List Int)), 1 ≤ n →
      threadCompute DP seq1 M W n stray mat
        = (threadCompute DP seq1 M W (n - 1) stray mat
            >>= round DP seq1 M W stray (n : Int) ((n + 1) % 2, n % 2)) := by
    intro n mat hn
    obtain ⟨k, rfl⟩ : ∃ k, n = k + 1 := ⟨n - 1, by omega⟩
    rw [threadCompute_succ]
    have e1 : (((k + 1 : Nat) : Int)) = (k : Int) + 1 := by push_cast; rfl
    have e2 : (k + 1 + 1) % 2 = k % 2 := by omega
    rw [e1, e2]
    rfl
  refine ⟨?_, key i h1 hN, ?_, fun mat => threadCompute_eq_rounds DP seq1 M W N stray mat,
    fun mat => snoc i mat h1, ?_, ?_⟩
  · rw [schedule_length]; simp [roundIndices]
  · have hf : finalRow N = N % 2 := by
      unfold finalRow
      rcases Nat.mod_two_eq_zero_or_one N with h | h <;> simp [h]
    rw [hf]
    exact key N (by omega) (le_refl N)
  · intro m m' h
    exact round_stores DP seq1 M W stray i ((i + 1) % 2) (i % 2) (by omega) m m' h
  · intro mat
    rw [snoc N mat (by omega), bind_assoc]
    congr 1
    funext m
    congr 1
    funext m'
    exact finalRead_eq N M m'

/-- Round 2 of "ATCG" on the table of "ATCG" with two workers: it holds
`old = 1`, `new = 0`, leaves row 1 as round 1 wrote it and stores into row 0;
and the value printed after four rounds is read from row 0 as round 4 left
it. -/
theorem C6_round_roles_witness :
    (schedule (roundIndices 4) (0, 1))[2 - 1]? = some (((2 : Nat) : Int), ((2 + 1) % 2, 2 % 2)) ∧
    round tableATCG (buffer ATCG) ((4 : Nat) : Int) 2 0 ((2 : Nat) : Int) ((2 + 1) % 2, 2 % 2)
        [[0, 0, 0, 0, 0], [0, 1, 1, 1, 1]] = .ok [[0, 1, 2, 2, 2], [0, 1, 1, 1, 1]] ∧
    (∀ r : Int, r ≠ ((2 % 2 : Nat) : Int) →
      load [[0, 1, 2, 2, 2], [0, 1, 1, 1, 1]] r
        = load ([[0, 0, 0, 0, 0], [0, 1, 1, 1, 1]] : List (List Int)) r) ∧
    (threadCompute tableATCG (buffer ATCG) ((4 : Nat) : Int) 2 4 0 (initMat 4 (fun _ => 0))
        >>= finalRead 4 4)
      = (threadCompute tableATCG (buffer ATCG) ((4 : Nat) : Int) 2 (4 - 1) 0
          (initMat 4 (fun _ => 0)) >>= fun m =>
          round tableATCG (buffer ATCG) ((4 : Nat) : Int) 2 0 ((4 : Nat) : Int)
            ((4 + 1) % 2, 4 % 2) m >>= fun m' =>
            load2 m' ((4 % 2 : Nat) : Int) ((4 : Nat) : Int)) :=
  ⟨(C6_round_roles tableATCG (buffer ATCG) 4 2 0 4 2 (by decide) (by decide)).2.1,
   rfl,
   ((C6_round_roles tableATCG (buffer ATCG) 4 2 0 4 2 (by decide) (by decide)).2.2.2.2.2.1
      [[0, 0, 0, 0, 0], [0, 1, 1, 1, 1]] [[0, 1, 2, 2, 2], [0, 1, 1, 1, 1]] rfl).1,
   (C6_round_roles tableATCG (buffer ATCG) 4 2 0 4 2 (by decide) (by decide)).2.2.2.2.2.2
      (initMat 4 (fun _ => 0))⟩

end LCS
